import Mathlib

/-!
Verification of the tainting-and-extraction engine of `scripts/jar_marker.py`.

The Python source drives two external capabilities: the ASM structural code
model (ClassReader / ClassWriter / ClassNode trees) and Python's `zipfile`
module.  We embed the source shallowly:

* A class file's parsed tree (`ClassNode`, `MethodNode`, `FieldNode`, and the
  instruction node classes) is embedded as Lean structures.  Byte contents of
  archive entries are abstracted: `EntryContent.classData cn` stands for bytes
  that `ClassReader` parses to the tree `cn` (and that `ClassWriter` produces
  from `cn`); `EntryContent.raw bs` stands for bytes that are not parseable as
  a class (a `ClassReader` call on them raises).  Constant-pool constants are
  modelled as strings (the code only ever compares their `str()` image).
* Java / Python string primitives (`startsWith`, `endsWith`, `contains`,
  `split`, `replace("-", "")`) are defined over the character list `s.data`.
* The process-global `REGISTRY` dict-of-dicts is embedded as `Registry`,
  a record of three insertion-ordered association lists with Python dict
  semantics (`dictGet` / `dictInsert`).
* `uuid.uuid4()` — an external collision-resistant identifier source — is
  modelled as an injective supply `uuid4 : Nat -> String` indexed by how many
  uids the run has minted so far; the mutable supply position is threaded in
  `TaintState.ctr`.
* `zipfile` reads an entry *by name*: `zin.read(item.filename)` returns the
  bytes of the last archive entry bearing that name (CPython's
  `NameToInfo[x.filename] = x` lets later duplicates overwrite earlier ones).
  `readName` embeds that; it is what makes duplicate-named entries observable.
-/

namespace JarMarker

/-! ### Java / Python string primitives over character lists -/

/-- Java `String.startsWith`: the receiver's characters begin with `p`'s. -/
def strStartsWith (s p : String) : Bool := p.data.isPrefixOf s.data

/-- Java `String.endsWith`: the receiver's characters end with `p`'s. -/
def strEndsWith (s p : String) : Bool := p.data.isSuffixOf s.data

/-- Substring occurrence test over character lists (Java `String.contains`). -/
def subOf (sub : List Char) : List Char → Bool
  | [] => sub.isEmpty
  | c :: rest => sub.isPrefixOf (c :: rest) || subOf sub rest

/-- Java `String.contains`. -/
def strContains (s sub : String) : Bool := subOf sub.data s.data

/-- Python `str.split(sep)` for a non-empty separator, over character lists:
splits at every occurrence of `sep`, keeping the (possibly empty) chunks.
Recursion is driven by a fuel bounded by the string length (each step
consumes at least one character, so the fuel never runs out). -/
def pySplitFuel (sep : List Char) : Nat → List Char → List (List Char)
  | _, [] => [[]]
  | 0, s => [s]
  | fuel + 1, c :: rest =>
    if sep.isPrefixOf (c :: rest) ∧ sep ≠ [] then
      [] :: pySplitFuel sep fuel ((c :: rest).drop sep.length)
    else
      match pySplitFuel sep fuel rest with
      | [] => [[c]]
      | chunk :: more => (c :: chunk) :: more

/-- Python `str.split(sep)` for a non-empty separator. -/
def pySplit (sep s : List Char) : List (List Char) := pySplitFuel sep s.length s

/-- Python `str.replace("-", "")`: drop every dash. -/
def replaceDashes (s : String) : String := String.mk (s.data.filter (fun c => c ≠ '-'))

/-! ### The structural code model (ASM tree nodes) -/

/-- JVM access flags, as in `org.objectweb.asm.Opcodes`. -/
def ACC_PUBLIC : Nat := 1
def ACC_STATIC : Nat := 8
def ACC_FINAL : Nat := 16
def ACC_NATIVE : Nat := 256
def ACC_ABSTRACT : Nat := 1024

/-- JVM opcodes used by the source, as in `org.objectweb.asm.Opcodes`. -/
def ACONST_NULL : Nat := 1
def DUP : Nat := 89
def POP : Nat := 87
def RETURN : Nat := 177
def GETSTATIC : Nat := 178
def GETFIELD : Nat := 180
def INVOKESPECIAL : Nat := 183
def NEW : Nat := 187
def ATHROW : Nat := 191

/-- One instruction node of the ASM tree model.  `ldcInsnNode` carries the
`str()` image of its constant (the only view the source ever takes of it). -/
inductive Insn where
  | insnNode (opcode : Nat)
  | fieldInsnNode (opcode : Nat) (owner name desc : String)
  | ldcInsnNode (cst : String)
  | typeInsnNode (opcode : Nat) (desc : String)
  | methodInsnNode (opcode : Nat) (owner name desc : String) (itf : Bool)
deriving DecidableEq

/-- `org.objectweb.asm.tree.FieldNode`; `value` is the constant-value
attribute (a string constant or absent). -/
structure FieldNode where
  access : Nat
  name : String
  desc : String
  value : Option String
deriving DecidableEq

/-- `org.objectweb.asm.tree.MethodNode`.  The try-catch-block and
local-variable tables only ever matter through their sizes, so they are
modelled by their entry counts. -/
structure MethodNode where
  access : Nat
  name : String
  desc : String
  instructions : List Insn
  tryCatchBlocks : Nat
  localVariables : Nat
deriving DecidableEq

/-- `org.objectweb.asm.tree.ClassNode` (the parts the source touches). -/
structure ClassNode where
  name : String
  fields : List FieldNode
  methods : List MethodNode
deriving DecidableEq

/-! ### Archive entries -/

/-- Bytes of one archive entry, abstracted through the external parser:
`classData cn` are bytes that parse to the tree `cn` (and are what
serializing `cn` produces); `raw bs` are bytes on which the parser raises. -/
inductive EntryContent where
  | raw (bs : List Nat)
  | classData (cn : ClassNode)
deriving DecidableEq

/-- One entry of a zip archive: relative path plus content. -/
structure ZipEntry where
  filename : String
  content : EntryContent
deriving DecidableEq

/-- `ClassReader` + `ClassNode.accept`: parse entry bytes into a tree, or
fail (`none` stands for the raised exception the source catches). -/
def parseClass : EntryContent → Option ClassNode
  | .raw _ => none
  | .classData cn => some cn

/-- `zin.read(name)`: `zipfile` resolves a member *by name*; with duplicate
names the last entry wins (`NameToInfo` is overwritten in entry order).
The default is never reached for names taken from the archive itself. -/
def readName (entries : List ZipEntry) (name : String) : EntryContent :=
  (((entries.filter (fun e => e.filename == name)).getLast?).map (fun e => e.content)).getD
    (EntryContent.raw [])

/-! ### The correlation registry (the global `REGISTRY`) -/

/-- Value type of `REGISTRY["classes"]`: `{"name": original_owner}`. -/
structure ClassData where
  name : String
deriving DecidableEq

/-- Value type of `REGISTRY["fields"]` and `REGISTRY["methods"]`:
`{"owner": ..., "name": ..., "desc": ...}`. -/
structure MemberData where
  owner : String
  name : String
  desc : String
deriving DecidableEq

/-- Python `dict.get` over an insertion-ordered association list. -/
def dictGet (k : String) (d : List (String × α)) : Option α :=
  (d.find? (fun p => p.1 == k)).map (fun p => p.2)

/-- Python `dict[k] = v`: overwrite in place if the key is present,
else append (Python dicts preserve insertion order). -/
def dictInsert (k : String) (v : α) (d : List (String × α)) : List (String × α) :=
  if d.any (fun p => p.1 == k) then
    d.map (fun p => if p.1 == k then (k, v) else p)
  else d ++ [(k, v)]

/-- The global `REGISTRY = {"classes": {}, "methods": {}, "fields": {}}`. -/
structure Registry where
  classes : List (String × ClassData)
  methods : List (String × MemberData)
  fields : List (String × MemberData)
deriving DecidableEq

/-- The registry value at module initialization. -/
def emptyRegistry : Registry := ⟨[], [], []⟩

/-- The external uid source `uuid.uuid4()`, modelled as an injective supply:
the `n`-th minted uid.  Every minted uid starts with `"uuid-"`; dashes are
what `replaceDashes` strips for field uids. -/
def uuid4 (n : Nat) : String := "uuid-" ++ String.mk (List.replicate n 'x')

/-- A field uid as minted by the source: `str(uuid.uuid4()).replace("-", "")`. -/
def fieldUid (n : Nat) : String := replaceDashes (uuid4 n)

/-- Mutable state threaded through a tainting run: the global registry plus
the position of the uid supply. -/
structure TaintState where
  reg : Registry
  ctr : Nat
deriving DecidableEq

/-! ### Phase 1: tainting (`taint_jar`) -/

/-- The reserved marker field name. -/
def markerFieldName : String := "__MCP_UUID__"

/-- The reserved field-probe method-name tag `"$$mcp_trace_"`. -/
def traceTag : String := "$$mcp_trace_"

/-- The synthetic probe method minted for one field (`taint_jar`, step 2):
`public static ()V`, named `$$mcp_trace_{f_uid}`, whose body loads the field
(pushing a null receiver first for instance fields), pops, and returns. -/
def fieldTraceMethod (clsName : String) (f : FieldNode) (f_uid : String) : MethodNode :=
  let is_static : Bool := f.access &&& ACC_STATIC != 0
  let opcode := if is_static then GETSTATIC else GETFIELD
  { access := ACC_PUBLIC ||| ACC_STATIC
    name := traceTag ++ f_uid
    desc := "()V"
    instructions :=
      (if is_static then [] else [Insn.insnNode ACONST_NULL]) ++
      [Insn.fieldInsnNode opcode clsName f.name f.desc,
       Insn.insnNode POP, Insn.insnNode RETURN]
    tryCatchBlocks := 0
    localVariables := 0 }

/-- The loop of `taint_jar` step 2 over `original_fields`: skip the marker
field; for the rest mint a dashless field uid, record it, and synthesize the
probe method.  Returns the probe methods (in field order) and the new state. -/
def taintFields (owner clsName : String) : List FieldNode → TaintState → List MethodNode × TaintState
  | [], st => ([], st)
  | f :: rest, st =>
    if f.name == markerFieldName then taintFields owner clsName rest st
    else
      let f_uid := fieldUid st.ctr
      let st' : TaintState :=
        { reg := { st.reg with fields := dictInsert f_uid ⟨owner, f.name, f.desc⟩ st.reg.fields }
          ctr := st.ctr + 1 }
      let (ms, st'') := taintFields owner clsName rest st'
      (fieldTraceMethod clsName f f_uid :: ms, st'')

/-- The always-raising replacement body installed by `taint_jar` step 3. -/
def carrierBody (m_uid : String) : List Insn :=
  [Insn.typeInsnNode NEW "java/lang/Error",
   Insn.insnNode DUP,
   Insn.ldcInsnNode m_uid,
   Insn.methodInsnNode INVOKESPECIAL "java/lang/Error" "<init>" "(Ljava/lang/String;)V" false,
   Insn.insnNode ATHROW]

/-- The skip condition of `taint_jar` step 3: constructors / initializers,
reserved-prefixed synthetics, abstract and native methods are left alone. -/
def skipsTaint (m : MethodNode) : Bool :=
  strStartsWith m.name "<" || strStartsWith m.name "$$mcp" ||
    (m.access &&& ACC_ABSTRACT != 0) || (m.access &&& ACC_NATIVE != 0)

/-- The loop of `taint_jar` step 3 over `cn.methods`: for every method not
skipped, mint a method uid, record it, and destructively replace the body,
try-catch table, and local-variable table. -/
def taintMethods (owner : String) : List MethodNode → TaintState → List MethodNode × TaintState
  | [], st => ([], st)
  | m :: rest, st =>
    if skipsTaint m then
      let (ms, st') := taintMethods owner rest st
      (m :: ms, st')
    else
      let m_uid := uuid4 st.ctr
      let st' : TaintState :=
        { reg := { st.reg with methods := dictInsert m_uid ⟨owner, m.name, m.desc⟩ st.reg.methods }
          ctr := st.ctr + 1 }
      let m' : MethodNode :=
        { m with instructions := carrierBody m_uid, tryCatchBlocks := 0, localVariables := 0 }
      let (ms, st'') := taintMethods owner rest st'
      (m' :: ms, st'')

/-- Tainting one parsed class (`taint_jar`, steps 1–3): record the class uid
and append the marker field; probe every non-marker field (the iteration
copy is taken *after* the marker was appended); replace every non-skipped
method body. -/
def taintClass (cn : ClassNode) (st : TaintState) : ClassNode × TaintState :=
  let original_owner := cn.name
  let c_uid := uuid4 st.ctr
  let st1 : TaintState :=
    { reg := { st.reg with classes := dictInsert c_uid ⟨original_owner⟩ st.reg.classes }
      ctr := st.ctr + 1 }
  let trace_field : FieldNode :=
    ⟨ACC_PUBLIC ||| ACC_STATIC ||| ACC_FINAL, markerFieldName, "Ljava/lang/String;", some c_uid⟩
  let fields1 := cn.fields ++ [trace_field]
  let (trace_methods, st2) := taintFields original_owner cn.name fields1 st1
  let methods1 := cn.methods ++ trace_methods
  let (methods2, st3) := taintMethods original_owner methods1 st2
  ({ name := cn.name, fields := fields1, methods := methods2 }, st3)

/-- Processing of one archive entry by `taint_jar`'s main loop: non-class
names and unparsable class bytes are copied through unchanged (the bytes
come from a by-name read of the source archive); parsed classes are tainted
and re-serialized. -/
def taintEntry (zin : List ZipEntry) (item : ZipEntry) (st : TaintState) : ZipEntry × TaintState :=
  let bytes_in := readName zin item.filename
  if strEndsWith item.filename ".class" then
    match parseClass bytes_in with
    | none => (⟨item.filename, bytes_in⟩, st)
    | some cn =>
      let (cn', st') := taintClass cn st
      (⟨item.filename, EntryContent.classData cn'⟩, st')
  else (⟨item.filename, bytes_in⟩, st)

/-- The entry loop of `taint_jar` over `zin.infolist()`. -/
def taintLoop (zin : List ZipEntry) : List ZipEntry → TaintState → List ZipEntry × TaintState
  | [], st => ([], st)
  | item :: rest, st =>
    let (e, st') := taintEntry zin item st
    let (out, st'') := taintLoop zin rest st'
    (e :: out, st'')

/-- `taint_jar(input, output)`: the output archive's entries, plus the
global state (registry and uid supply) after the pass.  `taint_jar` itself
never resets the global registry; it acts on whatever state it is given. -/
def taint_jar (zin : List ZipEntry) (st : TaintState) : List ZipEntry × TaintState :=
  taintLoop zin zin st

/-! ### Phase 2: extraction (`generate_tiny`) -/

/-- The class-uid resolution of `generate_tiny` step 1: the first field whose
name *ends with* the marker suffix supplies `c_uid` (its constant value). -/
def classUidOf (cn : ClassNode) : Option String :=
  match cn.fields.find? (fun f => strEndsWith f.name markerFieldName) with
  | none => none
  | some f => f.value

/-- Python truthiness of `c_uid` in `if not c_uid: continue`:
`None` and the empty string are both falsy. -/
def uidTruthy : Option String → Bool
  | none => false
  | some s => s != ""

/-- The inner scan of `generate_tiny` step 2: the first `FieldInsnNode` of a
probe method's instruction list, if any, supplies the current field name. -/
def firstFieldInsnName : List Insn → Option String
  | [] => none
  | Insn.fieldInsnNode _ _ name _ :: _ => some name
  | _ :: rest => firstFieldInsnName rest

/-- `generate_tiny` step 2, one method: if its name contains the probe tag,
split out the field uid, scan for the first field-access instruction, and on
a registry hit emit one FIELD row (owner column: the enclosing class's
resolved original name). -/
def fieldRowsOf (reg : Registry) (original_c_name : String) (m : MethodNode) : List String :=
  if strContains m.name traceTag then
    let f_uid := String.mk ((pySplit traceTag.data m.name.data).getD 1 [])
    match firstFieldInsnName m.instructions with
    | none => []
    | some mapped_f_name =>
      match dictGet f_uid reg.fields with
      | none => []
      | some orig_f_data =>
        ["FIELD\t" ++ original_c_name ++ "\t" ++ orig_f_data.desc ++ "\t" ++
          orig_f_data.name ++ "\t" ++ mapped_f_name]
  else []

/-- The inner scan of `generate_tiny` step 3: the first `LdcInsnNode` of a
method's instruction list, if any (the loop `break`s at the first one,
whether or not its constant is a registered uid). -/
def firstLdc : List Insn → Option String
  | [] => none
  | Insn.ldcInsnNode cst :: _ => some cst
  | _ :: rest => firstLdc rest

/-- `generate_tiny` step 3, one method: if the first constant-load's value is
a registered method uid, emit one METHOD row (owner column: the enclosing
class's resolved original name; current name: the enclosing method's name). -/
def methodRowsOf (reg : Registry) (original_c_name : String) (m : MethodNode) : List String :=
  match firstLdc m.instructions with
  | none => []
  | some m_uid =>
    match dictGet m_uid reg.methods with
    | none => []
    | some orig_m_data =>
      ["METHOD\t" ++ original_c_name ++ "\t" ++ orig_m_data.desc ++ "\t" ++
        orig_m_data.name ++ "\t" ++ m.name]

/-- The rows contributed by one parsed class: resolve the marker uid (skip
the class on a missing / falsy / unregistered uid), then one CLASS row, then
the FIELD rows of all probe methods, then the METHOD rows of all methods. -/
def tinyClassRows (reg : Registry) (cn : ClassNode) : List String :=
  let c_uid := classUidOf cn
  if uidTruthy c_uid then
    match dictGet (c_uid.getD "") reg.classes with
    | none => []
    | some orig_c_data =>
      ("CLASS\t" ++ orig_c_data.name ++ "\t" ++ cn.name)
        :: (cn.methods.flatMap (fieldRowsOf reg orig_c_data.name)
            ++ cn.methods.flatMap (methodRowsOf reg orig_c_data.name))
  else []

/-- The rows contributed by one archive name in `generate_tiny`'s loop over
`z.namelist()`: non-class names and unparsable classes are skipped. -/
def tinyEntryRows (z : List ZipEntry) (reg : Registry) (filename : String) : List String :=
  if strEndsWith filename ".class" then
    match parseClass (readName z filename) with
    | none => []
    | some cn => tinyClassRows reg cn
  else []

/-- `generate_tiny(remapped_jar, output)`: the lines of the emitted tiny
file, header first, then rows in encounter order.  The registry is only
read. -/
def generate_tiny (z : List ZipEntry) (reg : Registry) : List String :=
  "v1\tofficial\tnamed" :: (z.map (fun e => e.filename)).flatMap (tinyEntryRows z reg)

/-! ### Entry loops specialised to archives with distinct entry names

When no two entries of an archive share a name, `readName` returns each
entry's own content, and both passes reduce to simple folds over the entry
list.  These folds are what the correctness arguments are phrased over. -/

/-- `taintEntry` when the by-name read returns the entry's own bytes. -/
def taintEntryS (item : ZipEntry) (st : TaintState) : ZipEntry × TaintState :=
  if strEndsWith item.filename ".class" then
    match parseClass item.content with
    | none => (item, st)
    | some cn =>
      let (cn', st') := taintClass cn st
      (⟨item.filename, EntryContent.classData cn'⟩, st')
  else (item, st)

/-- The tainting entry loop over an archive with distinct entry names. -/
def taintLoopS : List ZipEntry → TaintState → List ZipEntry × TaintState
  | [], st => ([], st)
  | item :: rest, st =>
    let (e, st') := taintEntryS item st
    let (out, st'') := taintLoopS rest st'
    (e :: out, st'')

/-- `tinyEntryRows` when the by-name read returns the entry's own bytes. -/
def tinyEntryRowsS (reg : Registry) (item : ZipEntry) : List String :=
  if strEndsWith item.filename ".class" then
    match parseClass item.content with
    | none => []
    | some cn => tinyClassRows reg cn
  else []

/-! ### Counting the input's classes, fields, and methods -/

/-- The parsed class of an entry, when its name denotes a class and its
bytes parse. -/
def parsedOf (e : ZipEntry) : Option ClassNode :=
  if strEndsWith e.filename ".class" then parseClass e.content else none

/-- All classes of an archive that the tainting pass parses and taints. -/
def parsedClasses (X : List ZipEntry) : List ClassNode := X.filterMap parsedOf

/-- Number of non-marker fields of one class (`M` restricted to it). -/
def nmCount (fs : List FieldNode) : Nat :=
  (fs.filter (fun f => !(f.name == markerFieldName))).length

/-- Number of methods of one class that the tainting pass rewrites
(`N` restricted to it): concrete, non-constructor, non-reserved-prefixed,
non-abstract, non-native. -/
def eligCount (ms : List MethodNode) : Nat := (ms.filter (fun m => !(skipsTaint m))).length

/-- `K`: the number of classes of the input. -/
def numClasses (X : List ZipEntry) : Nat := (parsedClasses X).length

/-- `M`: the total number of non-marker fields of the input. -/
def numFields (X : List ZipEntry) : Nat :=
  ((parsedClasses X).map (fun cn => nmCount cn.fields)).sum

/-- `N`: the total number of tainted methods of the input. -/
def numMethods (X : List ZipEntry) : Nat :=
  ((parsedClasses X).map (fun cn => eligCount cn.methods)).sum

/-- Uids minted while tainting one class: one class uid, one uid per
non-marker field, one per rewritten method. -/
def cmc (cn : ClassNode) : Nat := 1 + nmCount cn.fields + eligCount cn.methods

/-- Total uids minted by a tainting pass. -/
def jarTotal : List ZipEntry → Nat
  | [] => 0
  | e :: rest =>
    match parsedOf e with
    | some cn => cmc cn + jarTotal rest
    | none => jarTotal rest

/-! ### Closed forms of one tainting pass

The next definitions describe, as pure functions of the input and of the
uid-supply position, the registry entries a pass appends and the archive it
writes.  They are proof devices: the theorems below show they agree with
`taint_jar`. -/

/-- Field-registry entries minted for a field list starting at supply
position `c`. -/
def fMints (owner : String) : List FieldNode → Nat → List (String × MemberData)
  | [], _ => []
  | f :: rest, c =>
    if f.name == markerFieldName then fMints owner rest c
    else (fieldUid c, ⟨owner, f.name, f.desc⟩) :: fMints owner rest (c + 1)

/-- Probe methods synthesized for a field list starting at supply
position `c`. -/
def traceOf (clsName : String) : List FieldNode → Nat → List MethodNode
  | [], _ => []
  | f :: rest, c =>
    if f.name == markerFieldName then traceOf clsName rest c
    else fieldTraceMethod clsName f (fieldUid c) :: traceOf clsName rest (c + 1)

/-- Method-registry entries minted for a method list starting at supply
position `c`. -/
def mMints (owner : String) : List MethodNode → Nat → List (String × MemberData)
  | [], _ => []
  | m :: rest, c =>
    if skipsTaint m then mMints owner rest c
    else (uuid4 c, ⟨owner, m.name, m.desc⟩) :: mMints owner rest (c + 1)

/-- The rewritten method list: skipped methods unchanged, the rest with the
always-raising carrier body, uids drawn in order from position `c`. -/
def mApply : List MethodNode → Nat → List MethodNode
  | [], _ => []
  | m :: rest, c =>
    if skipsTaint m then m :: mApply rest c
    else { m with instructions := carrierBody (uuid4 c), tryCatchBlocks := 0, localVariables := 0 }
      :: mApply rest (c + 1)

/-- The marker field added to a class whose class uid is the `n`-th. -/
def markerFieldAt (n : Nat) : FieldNode :=
  ⟨ACC_PUBLIC ||| ACC_STATIC ||| ACC_FINAL, markerFieldName, "Ljava/lang/String;", some (uuid4 n)⟩

/-- The tainted image of one class whose class uid is the `n`-th minted. -/
def taintedClassSpec (cn : ClassNode) (n : Nat) : ClassNode :=
  { name := cn.name
    fields := cn.fields ++ [markerFieldAt n]
    methods := mApply cn.methods (n + 1 + nmCount cn.fields) ++ traceOf cn.name cn.fields (n + 1) }

/-- Class-registry entries appended by a pass starting at supply
position `n`. -/
def jarCMints : List ZipEntry → Nat → List (String × ClassData)
  | [], _ => []
  | e :: rest, n =>
    match parsedOf e with
    | some cn => (uuid4 n, ⟨cn.name⟩) :: jarCMints rest (n + cmc cn)
    | none => jarCMints rest n

/-- Field-registry entries appended by a pass starting at supply
position `n`. -/
def jarFMints : List ZipEntry → Nat → List (String × MemberData)
  | [], _ => []
  | e :: rest, n =>
    match parsedOf e with
    | some cn => fMints cn.name cn.fields (n + 1) ++ jarFMints rest (n + cmc cn)
    | none => jarFMints rest n

/-- Method-registry entries appended by a pass starting at supply
position `n`. -/
def jarMMints : List ZipEntry → Nat → List (String × MemberData)
  | [], _ => []
  | e :: rest, n =>
    match parsedOf e with
    | some cn =>
      mMints cn.name cn.methods (n + 1 + nmCount cn.fields) ++ jarMMints rest (n + cmc cn)
    | none => jarMMints rest n

/-- The archive a pass writes, starting at supply position `n` (distinct
entry names assumed). -/
def jarOut : List ZipEntry → Nat → List ZipEntry
  | [], _ => []
  | e :: rest, n =>
    match parsedOf e with
    | some cn => ⟨e.filename, EntryContent.classData (taintedClassSpec cn n)⟩ :: jarOut rest (n + cmc cn)
    | none => e :: jarOut rest n

/-! ### Registry key shape invariant -/

/-- Every key of the association list is a uid minted before supply
position `c` by the given renderer. -/
def KeysFrom (render : Nat → String) (d : List (String × α)) (c : Nat) : Prop :=
  ∀ k ∈ d.map Prod.fst, ∃ n, n < c ∧ k = render n

/-- All registry keys were minted by the current run's uid supply before
its current position — true of the empty registry and preserved by
tainting. -/
def RegIdx (st : TaintState) : Prop :=
  KeysFrom uuid4 st.reg.classes st.ctr ∧ KeysFrom uuid4 st.reg.methods st.ctr ∧
    KeysFrom fieldUid st.reg.fields st.ctr

/-! ### Collision hygiene of an input artifact

The reserved names and the minted uid strings are "chosen to be unlikely to
collide with user code"; a collision is undefined behaviour (spec §7,
MarkerCollision).  An input class is pristine when no field name ends with
the marker suffix, no method name contains the reserved `$$mcp` fragment,
and no string constant of a method body lies in the minted-uid namespace
(every minted uid starts with `"uuid"`). -/

/-- A constant-load instruction colliding with the uid namespace. -/
def insnUidLike : Insn → Bool
  | Insn.ldcInsnNode c => strStartsWith c "uuid"
  | _ => false

/-- Whether an instruction node is a constant-load (`LdcInsnNode`). -/
def isLdcInsn : Insn → Bool
  | Insn.ldcInsnNode _ => true
  | _ => false

/-- No reserved-name / uid-namespace collision in one method. -/
def methodPristine (m : MethodNode) : Bool :=
  !(strContains m.name "$$mcp") && m.instructions.all (fun i => !(insnUidLike i))

/-- No reserved-name / uid-namespace collision in one class. -/
def classPristine (cn : ClassNode) : Bool :=
  cn.fields.all (fun f => !(strEndsWith f.name markerFieldName)) &&
    cn.methods.all methodPristine

/-- No reserved-name / uid-namespace collision in the whole input. -/
def jarPristine (X : List ZipEntry) : Bool := (parsedClasses X).all classPristine

/-! ### The expected identity-mapping output (from the spec's wording)

`idClassRows` / `identityRows` follow the specification's description of
`extract(taint(X))` under a no-op intervening transformation: for every
class a CLASS row with equal original and current columns, for every
non-marker field a FIELD row with equal original and current name columns,
for every non-excluded method a METHOD row with equal name columns, in
declaration order. -/

def idClassRows (cn : ClassNode) : List String :=
  ("CLASS\t" ++ cn.name ++ "\t" ++ cn.name)
    :: ((cn.fields.filter (fun f => !(f.name == markerFieldName))).map
          (fun f => "FIELD\t" ++ cn.name ++ "\t" ++ f.desc ++ "\t" ++ f.name ++ "\t" ++ f.name)
        ++ (cn.methods.filter (fun m => !(skipsTaint m))).map
          (fun m => "METHOD\t" ++ cn.name ++ "\t" ++ m.desc ++ "\t" ++ m.name ++ "\t" ++ m.name))

def identityRows : List ZipEntry → List String
  | [] => []
  | e :: rest =>
    (match parsedOf e with
     | some cn => idClassRows cn
     | none => []) ++ identityRows rest

/-- Number of emitted rows bearing a given row tag. -/
def countTag (tag : String) (rows : List String) : Nat :=
  rows.countP (fun r => strStartsWith r tag)

/-! ### Concrete inputs used in scenarios, counterexamples and witnesses -/

/-- The spec §8 concrete scenario class: `class a { static int x; String y; void go() }`. -/
def exClassA : ClassNode :=
  { name := "a"
    fields := [⟨ACC_STATIC, "x", "I", none⟩, ⟨0, "y", "Ljava/lang/String;", none⟩]
    methods := [⟨ACC_PUBLIC, "go", "()V", [Insn.insnNode RETURN], 0, 0⟩] }

/-- A one-entry archive holding `exClassA`. -/
def exJarA : List ZipEntry := [⟨"a.class", EntryContent.classData exClassA⟩]

/-- A class with one abstract and one native method (C8's scenario). -/
def exClassSkip : ClassNode :=
  { name := "b", fields := []
    methods := [⟨ACC_PUBLIC ||| ACC_ABSTRACT, "am", "()V", [], 0, 0⟩,
                ⟨ACC_PUBLIC ||| ACC_NATIVE, "nm", "()V", [], 0, 0⟩] }

/-- A one-entry archive holding `exClassSkip`. -/
def exJarSkip : List ZipEntry := [⟨"b.class", EntryContent.classData exClassSkip⟩]

/-- An archive with two same-named non-class entries and different bytes. -/
def exJarDup : List ZipEntry :=
  [⟨"a.txt", EntryContent.raw [0]⟩, ⟨"a.txt", EntryContent.raw [1]⟩]

/-- A minimal one-class one-method input (used for the C3 counterexample). -/
def exJarGo : List ZipEntry :=
  [⟨"a.class", EntryContent.classData
      ⟨"a", [], [⟨ACC_PUBLIC, "go", "()V", [Insn.insnNode RETURN], 0, 0⟩]⟩⟩]

/-- The registry a tainting pass on `exJarGo` leaves behind: the class uid
is `uuid4 0 = "uuid-"`, the method uid of `go` is `uuid4 1 = "uuid-x"`. -/
def exRegGo : Registry := (taint_jar exJarGo ⟨emptyRegistry, 0⟩).2.reg

/-- `taint(exJarGo)` after a mapper that inserts a foreign constant-load in
front of `go`'s carrier body (uid-bearing markers left intact). -/
def exMappedGo : List ZipEntry :=
  [⟨"a.class", EntryContent.classData
      ⟨"a",
       [⟨ACC_PUBLIC ||| ACC_STATIC ||| ACC_FINAL, "__MCP_UUID__", "Ljava/lang/String;",
          some "uuid-"⟩],
       [⟨ACC_PUBLIC, "go", "()V", Insn.ldcInsnNode "hello" :: carrierBody "uuid-x", 0, 0⟩]⟩⟩]

/-- Input for the C4 counterexample: class `a` with one static field `x:I`,
plus an empty class `b`.  Tainting mints `uuid4 0` for `a`, `fieldUid 1 =
"uuidx"` for `x` (recorded with owner `a`), and `uuid4 2` for `b`. -/
def exJarAB : List ZipEntry :=
  [⟨"a.class", EntryContent.classData ⟨"a", [⟨ACC_STATIC, "x", "I", none⟩], []⟩⟩,
   ⟨"b.class", EntryContent.classData ⟨"b", [], []⟩⟩]

/-- The registry left by tainting `exJarAB`. -/
def exRegAB : Registry := (taint_jar exJarAB ⟨emptyRegistry, 0⟩).2.reg

/-- Class `b` of `taint(exJarAB)` after a mapper that relocates the probe
method of field `x` from class `a` into class `b` (markers left intact):
class `b` now carries its own marker and `a`'s probe. -/
def exClassBMoved : ClassNode :=
  ⟨"b",
   [⟨ACC_PUBLIC ||| ACC_STATIC ||| ACC_FINAL, "__MCP_UUID__", "Ljava/lang/String;",
      some "uuid-xx"⟩],
   [⟨ACC_PUBLIC ||| ACC_STATIC, "$$mcp_trace_uuidx", "()V",
      [Insn.fieldInsnNode GETSTATIC "a" "x" "I", Insn.insnNode POP, Insn.insnNode RETURN],
      0, 0⟩]⟩

/-- The relocated-probe artifact handed to extraction in C4's scenario. -/
def exMappedAB : List ZipEntry := [⟨"b.class", EntryContent.classData exClassBMoved⟩]

/-- A one-entry archive holding a single non-code entry. -/
def exJarTxt : List ZipEntry := [⟨"r.txt", EntryContent.raw [7]⟩]

/-- A class whose marker-bearing field name merely *ends* with the marker
suffix (C10's witness that exact equality is not required). -/
def exClassSuffix : ClassNode :=
  { name := "q", fields := [⟨ACC_STATIC, "Q__MCP_UUID__", "Ljava/lang/String;", some "u1"⟩]
    methods := [] }

/-! ## Lemmas about the string primitives and the uid supply -/

theorem uuid4_data (n : Nat) : (uuid4 n).data = ['u', 'u', 'i', 'd', '-'] ++ List.replicate n 'x' := by
  show (("uuid-" : String) ++ String.mk (List.replicate n 'x')).data = _
  rw [String.data_append]

theorem fieldUid_data (n : Nat) : (fieldUid n).data = ['u', 'u', 'i', 'd'] ++ List.replicate n 'x' := by
  show (String.mk ((uuid4 n).data.filter (fun c => c ≠ '-'))).data = _
  rw [uuid4_data]
  simp

theorem uuid4_injective : Function.Injective uuid4 := by
  intro m n h
  have h2 := congrArg (fun s => s.data.length) h
  simp only [uuid4_data, List.length_append, List.length_replicate] at h2
  omega

theorem fieldUid_injective : Function.Injective fieldUid := by
  intro m n h
  have h2 := congrArg (fun s => s.data.length) h
  simp only [fieldUid_data, List.length_append, List.length_replicate] at h2
  omega

theorem uuid4_ne_fieldUid (m n : Nat) : uuid4 m ≠ fieldUid n := by
  intro h
  have hmem : '-' ∈ (uuid4 m).data := by
    rw [uuid4_data]
    exact List.mem_append_left _ (by decide)
  rw [h, fieldUid_data] at hmem
  rcases List.mem_append.mp hmem with h1 | h1
  · exact absurd h1 (by decide)
  · exact absurd (List.mem_replicate.mp h1).2 (by decide)

theorem uuid4_ne_empty (n : Nat) : uuid4 n ≠ "" := by
  intro h
  have h2 := congrArg (fun s => s.data.length) h
  simp only [uuid4_data, List.length_append, List.length_replicate] at h2
  exact absurd h2 (by simp [String.data])

theorem isPrefixOf_self_append (l t : List Char) : l.isPrefixOf (l ++ t) = true := by
  induction l with
  | nil => simp
  | cons a as ih => simp [List.isPrefixOf_cons₂, ih]

theorem strStartsWith_append (p t : String) : strStartsWith (p ++ t) p = true := by
  simp only [strStartsWith, String.data_append]
  exact isPrefixOf_self_append _ _

theorem uuid4_uidLike (n : Nat) : strStartsWith (uuid4 n) "uuid" = true := by
  simp only [strStartsWith, uuid4_data]
  show List.isPrefixOf ['u', 'u', 'i', 'd'] _ = true
  simp [List.isPrefixOf_cons₂, List.isPrefixOf_nil_left]

theorem isPrefixOf_cons_ne {a b : Char} (l l' : List Char) (h : a ≠ b) :
    (a :: l).isPrefixOf (b :: l') = false := by
  simp [List.isPrefixOf_cons₂, h]

theorem subOf_iff (sub s : List Char) : subOf sub s = true ↔ sub <:+: s := by
  induction s with
  | nil =>
    simp only [subOf, List.isEmpty_iff, List.infix_nil]
  | cons c rest ih =>
    simp only [subOf, Bool.or_eq_true, ih, List.infix_cons_iff, List.isPrefixOf_iff_prefix]

theorem strContains_of_eq_append (s p t : String) (h : s = p ++ t) : strContains s p = true := by
  subst h
  simp only [strContains, subOf_iff, String.data_append]
  exact (List.prefix_append _ _).isInfix

theorem strContains_of_contains_sup {s a b : String} (hab : a.data <:+: b.data)
    (h : strContains s b = true) : strContains s a = true := by
  simp only [strContains, subOf_iff] at h ⊢
  exact hab.trans h

theorem strStartsWith_contains {s p : String} (h : strStartsWith s p = true) :
    strContains s p = true := by
  simp only [strStartsWith, List.isPrefixOf_iff_prefix] at h
  simp only [strContains, subOf_iff]
  exact h.isInfix

theorem traceTag_strStartsWith (u : String) : strStartsWith (traceTag ++ u) "$$mcp" = true := by
  simp only [strStartsWith, String.data_append]
  show List.isPrefixOf ['$', '$', 'm', 'c', 'p'] (['$', '$', 'm', 'c', 'p', '_', 't', 'r', 'a', 'c', 'e', '_'] ++ u.data) = true
  simp [List.isPrefixOf_cons₂, List.isPrefixOf_nil_left]

theorem not_strContains_traceTag {s : String} (h : strContains s "$$mcp" = false) :
    strContains s traceTag = false := by
  by_contra hc
  rw [Bool.not_eq_false] at hc
  have : strContains s "$$mcp" = true :=
    strContains_of_contains_sup (by decide) hc
  rw [h] at this
  exact Bool.false_ne_true this

theorem not_strStartsWith_mcp {s : String} (h : strContains s "$$mcp" = false) :
    strStartsWith s "$$mcp" = false := by
  by_contra hc
  rw [Bool.not_eq_false] at hc
  have hco := strStartsWith_contains hc
  rw [h] at hco
  exact Bool.false_ne_true hco

theorem not_contains_fieldUid (n : Nat) : subOf traceTag.data (fieldUid n).data = false := by
  by_contra hc
  rw [Bool.not_eq_false, subOf_iff] at hc
  have hmem : '$' ∈ (fieldUid n).data := hc.subset (by decide)
  rw [fieldUid_data] at hmem
  rcases List.mem_append.mp hmem with h1 | h1
  · exact absurd h1 (by decide)
  · exact absurd (List.mem_replicate.mp h1).2 (by decide)

theorem pySplitFuel_irrel (sep : List Char) :
    ∀ (f1 f2 : Nat) (s : List Char), s.length ≤ f1 → s.length ≤ f2 →
      pySplitFuel sep f1 s = pySplitFuel sep f2 s := by
  intro f1
  induction f1 with
  | zero =>
    intro f2 s h1 _
    have hs : s = [] := List.eq_nil_of_length_eq_zero (Nat.le_zero.mp h1)
    subst hs
    cases f2 with
    | zero => rfl
    | succ g => rfl
  | succ f ih =>
    intro f2 s h1 h2
    cases s with
    | nil =>
      cases f2 with
      | zero => rfl
      | succ g => rfl
    | cons c rest =>
      cases f2 with
      | zero =>
        rw [List.length_cons] at h2
        omega
      | succ g =>
        rw [pySplitFuel, pySplitFuel]
        by_cases hp : sep.isPrefixOf (c :: rest) = true ∧ sep ≠ []
        · rw [if_pos hp, if_pos hp]
          have hlen : ((c :: rest).drop sep.length).length ≤ f ∧
              ((c :: rest).drop sep.length).length ≤ g := by
            have hpos : 0 < sep.length := List.length_pos.mpr hp.2
            rw [List.length_drop, List.length_cons]
            rw [List.length_cons] at h1 h2
            omega
          rw [ih g _ hlen.1 hlen.2]
        · rw [if_neg hp, if_neg hp]
          have hlen : rest.length ≤ f ∧ rest.length ≤ g := by
            rw [List.length_cons] at h1 h2
            omega
          rw [ih g rest hlen.1 hlen.2]

theorem pySplitFuel_cons_sep (sep : List Char) (hne : sep ≠ []) (fuel : Nat) (t : List Char) :
    pySplitFuel sep (fuel + 1) (sep ++ t) = [] :: pySplitFuel sep fuel t := by
  obtain ⟨a, sep', rfl⟩ : ∃ a sep', sep = a :: sep' := by
    cases sep with
    | nil => exact absurd rfl hne
    | cons a s => exact ⟨a, s, rfl⟩
  rw [List.cons_append, pySplitFuel]
  rw [if_pos ⟨by rw [← List.cons_append]; exact isPrefixOf_self_append _ _, hne⟩]
  rw [← List.cons_append, List.drop_left]

theorem pySplit_nil_sep_eq (sep : List Char) (hne : sep ≠ []) :
    ∀ t, pySplit sep (sep ++ t) = [] :: pySplit sep (t : List Char) := by
  intro t
  have hpos : 0 < sep.length := List.length_pos.mpr hne
  have hlen : (sep ++ t).length = (sep.length - 1 + t.length) + 1 := by
    rw [List.length_append]
    omega
  rw [pySplit, hlen, pySplitFuel_cons_sep sep hne]
  rw [pySplitFuel_irrel sep (sep.length - 1 + t.length) t.length t (by omega) (Nat.le_refl _)]
  rfl

theorem pySplitFuel_no_occ (sep : List Char) :
    ∀ (s : List Char) (fuel : Nat), subOf sep s = false → pySplitFuel sep fuel s = [s] := by
  intro s
  induction s with
  | nil =>
    intro fuel _
    cases fuel with
    | zero => rfl
    | succ g => rfl
  | cons c rest ih =>
    intro fuel h
    simp only [subOf, Bool.or_eq_false_iff] at h
    cases fuel with
    | zero => rfl
    | succ g =>
      rw [pySplitFuel, if_neg (by simp [h.1]), ih g h.2]

theorem pySplit_no_occ (sep : List Char) : ∀ s, subOf sep s = false → pySplit sep s = [s] :=
  fun s h => pySplitFuel_no_occ sep s s.length h

theorem pySplit_tag_append (u : String) (hno : subOf traceTag.data u.data = false) :
    pySplit traceTag.data (traceTag ++ u).data = [[], u.data] := by
  rw [String.data_append, pySplit_nil_sep_eq _ (by decide), pySplit_no_occ _ _ hno]

/-! ## Lemmas about the Python dict model -/

theorem dictGet_of_mem {α : Type} {d : List (String × α)} {k : String} {v : α}
    (hnd : (d.map Prod.fst).Nodup) (hm : (k, v) ∈ d) : dictGet k d = some v := by
  induction d with
  | nil => exact absurd hm (List.not_mem_nil _)
  | cons p rest ih =>
    simp only [List.map_cons, List.nodup_cons] at hnd
    rcases List.mem_cons.mp hm with h | h
    · subst h
      simp [dictGet, List.find?]
    · have hk : p.1 ≠ k := by
        intro he
        exact hnd.1 (he ▸ List.mem_map_of_mem Prod.fst h)
      simp only [dictGet, List.find?, beq_eq_false_iff_ne.mpr hk]
      exact ih hnd.2 h

theorem dictGet_eq_none {α : Type} {d : List (String × α)} {k : String}
    (h : k ∉ d.map Prod.fst) : dictGet k d = none := by
  induction d with
  | nil => rfl
  | cons p rest ih =>
    simp only [List.map_cons, List.mem_cons, not_or] at h
    simp only [dictGet, List.find?, beq_eq_false_iff_ne.mpr (Ne.symm h.1)]
    exact ih h.2

theorem dictInsert_fresh {α : Type} {d : List (String × α)} {k : String} (v : α)
    (h : k ∉ d.map Prod.fst) : dictInsert k v d = d ++ [(k, v)] := by
  have hany : d.any (fun p => p.1 == k) = false := by
    rw [Bool.eq_false_iff]
    intro hc
    obtain ⟨p, hp, he⟩ := List.any_eq_true.mp hc
    exact h (beq_iff_eq.mp he ▸ List.mem_map_of_mem Prod.fst hp)
  simp [dictInsert, hany]

/-! ## Small facts about skip rules and marker filtering -/

theorem traceOf_skips (clsName : String) :
    ∀ (fs : List FieldNode) (c : Nat) (t : MethodNode), t ∈ traceOf clsName fs c →
      skipsTaint t = true := by
  intro fs
  induction fs with
  | nil => intro c t ht; exact absurd ht (List.not_mem_nil _)
  | cons f rest ih =>
    intro c t ht
    rw [traceOf] at ht
    by_cases hf : f.name == markerFieldName
    · rw [if_pos hf] at ht
      exact ih c t ht
    · rw [if_neg hf] at ht
      rcases List.mem_cons.mp ht with h | h
      · subst h
        simp only [skipsTaint, fieldTraceMethod]
        rw [traceTag_strStartsWith]
        simp
      · exact ih (c + 1) t h

theorem nmCount_marker_append (fs : List FieldNode) (g : FieldNode)
    (hg : g.name = markerFieldName) : nmCount (fs ++ [g]) = nmCount fs := by
  simp [nmCount, List.filter_append, List.filter_cons, hg]

theorem fMints_marker_append (owner : String) (g : FieldNode) (hg : g.name = markerFieldName) :
    ∀ (fs : List FieldNode) (c : Nat), fMints owner (fs ++ [g]) c = fMints owner fs c := by
  intro fs
  induction fs with
  | nil => intro c; simp [fMints, hg]
  | cons f rest ih =>
    intro c
    rw [List.cons_append, fMints, fMints]
    by_cases hf : f.name == markerFieldName
    · rw [if_pos hf, if_pos hf, ih]
    · rw [if_neg hf, if_neg hf, ih]

theorem traceOf_marker_append (clsName : String) (g : FieldNode) (hg : g.name = markerFieldName) :
    ∀ (fs : List FieldNode) (c : Nat), traceOf clsName (fs ++ [g]) c = traceOf clsName fs c := by
  intro fs
  induction fs with
  | nil => intro c; simp [traceOf, hg]
  | cons f rest ih =>
    intro c
    rw [List.cons_append, traceOf, traceOf]
    by_cases hf : f.name == markerFieldName
    · rw [if_pos hf, if_pos hf, ih]
    · rw [if_neg hf, if_neg hf, ih]

theorem eligCount_skip_append (ms tms : List MethodNode)
    (htm : ∀ t ∈ tms, skipsTaint t = true) : eligCount (ms ++ tms) = eligCount ms := by
  have h2 : tms.filter (fun m => !(skipsTaint m)) = [] := by
    rw [List.filter_eq_nil_iff]
    intro t ht
    simp [htm t ht]
  simp [eligCount, List.filter_append, h2]

theorem mMints_all_skip (owner : String) :
    ∀ (tms : List MethodNode), (∀ t ∈ tms, skipsTaint t = true) →
      ∀ (c : Nat), mMints owner tms c = [] := by
  intro tms
  induction tms with
  | nil => intro _ c; rfl
  | cons t rest ih =>
    intro htm c
    rw [mMints, if_pos (htm t (List.mem_cons_self t rest))]
    exact ih (fun t' ht' => htm t' (List.mem_cons_of_mem t ht')) c

theorem mApply_all_skip :
    ∀ (tms : List MethodNode), (∀ t ∈ tms, skipsTaint t = true) →
      ∀ (c : Nat), mApply tms c = tms := by
  intro tms
  induction tms with
  | nil => intro _ c; rfl
  | cons t rest ih =>
    intro htm c
    rw [mApply, if_pos (htm t (List.mem_cons_self t rest))]
    rw [ih (fun t' ht' => htm t' (List.mem_cons_of_mem t ht')) c]

theorem mMints_skip_append (owner : String) (tms : List MethodNode)
    (htm : ∀ t ∈ tms, skipsTaint t = true) :
    ∀ (ms : List MethodNode) (c : Nat), mMints owner (ms ++ tms) c = mMints owner ms c := by
  intro ms
  induction ms with
  | nil =>
    intro c
    rw [List.nil_append, mMints_all_skip owner tms htm c]
    rfl
  | cons m rest ih =>
    intro c
    rw [List.cons_append, mMints, mMints]
    by_cases hm : skipsTaint m
    · rw [if_pos hm, if_pos hm, ih]
    · rw [if_neg hm, if_neg hm, ih]

theorem mApply_skip_append (tms : List MethodNode) (htm : ∀ t ∈ tms, skipsTaint t = true) :
    ∀ (ms : List MethodNode) (c : Nat), mApply (ms ++ tms) c = mApply ms c ++ tms := by
  intro ms
  induction ms with
  | nil =>
    intro c
    rw [List.nil_append, mApply_all_skip tms htm c]
    rfl
  | cons m rest ih =>
    intro c
    rw [List.cons_append, mApply, mApply]
    by_cases hm : skipsTaint m
    · rw [if_pos hm, if_pos hm, ih, List.cons_append]
    · rw [if_neg hm, if_neg hm, ih, List.cons_append]

/-! ## Characterization of the tainting pass -/

theorem KeysFrom_mono {α : Type} {render : Nat → String} {d : List (String × α)} {c c' : Nat}
    (hcc : c ≤ c') (h : KeysFrom render d c) : KeysFrom render d c' := by
  intro k hk
  obtain ⟨n, hn, he⟩ := h k hk
  exact ⟨n, Nat.lt_of_lt_of_le hn hcc, he⟩

theorem KeysFrom_append {α : Type} {render : Nat → String} {d1 d2 : List (String × α)} {c : Nat}
    (h1 : KeysFrom render d1 c) (h2 : KeysFrom render d2 c) : KeysFrom render (d1 ++ d2) c := by
  intro k hk
  rw [List.map_append, List.mem_append] at hk
  rcases hk with h | h
  · exact h1 k h
  · exact h2 k h

theorem fMints_keys (owner : String) :
    ∀ (fs : List FieldNode) (c : Nat), ∀ k ∈ (fMints owner fs c).map Prod.fst,
      ∃ m, c ≤ m ∧ m < c + nmCount fs ∧ k = fieldUid m := by
  intro fs
  induction fs with
  | nil => intro c k hk; exact absurd hk (List.not_mem_nil _)
  | cons f rest ih =>
    intro c k hk
    rw [fMints] at hk
    by_cases hf : f.name == markerFieldName
    · rw [if_pos hf] at hk
      obtain ⟨m, h1, h2, h3⟩ := ih c k hk
      refine ⟨m, h1, ?_, h3⟩
      simp only [nmCount, List.filter_cons, hf]
      simpa [nmCount] using h2
    · rw [if_neg hf] at hk
      rcases List.mem_cons.mp hk with h | h
      · refine ⟨c, Nat.le_refl c, ?_, h⟩
        have : 0 < nmCount (f :: rest) := by
          simp [nmCount, List.filter_cons, hf]
        omega
      · obtain ⟨m, h1, h2, h3⟩ := ih (c + 1) k h
        refine ⟨m, by omega, ?_, h3⟩
        have : nmCount (f :: rest) = nmCount rest + 1 := by
          simp [nmCount, List.filter_cons, hf]
        omega

theorem mMints_keys (owner : String) :
    ∀ (ms : List MethodNode) (c : Nat), ∀ k ∈ (mMints owner ms c).map Prod.fst,
      ∃ m, c ≤ m ∧ m < c + eligCount ms ∧ k = uuid4 m := by
  intro ms
  induction ms with
  | nil => intro c k hk; exact absurd hk (List.not_mem_nil _)
  | cons mm rest ih =>
    intro c k hk
    rw [mMints] at hk
    by_cases hm : skipsTaint mm
    · rw [if_pos hm] at hk
      obtain ⟨m, h1, h2, h3⟩ := ih c k hk
      refine ⟨m, h1, ?_, h3⟩
      simp only [eligCount, List.filter_cons, hm]
      simpa [eligCount] using h2
    · rw [if_neg hm] at hk
      rcases List.mem_cons.mp hk with h | h
      · refine ⟨c, Nat.le_refl c, ?_, h⟩
        have : 0 < eligCount (mm :: rest) := by
          simp [eligCount, List.filter_cons, hm]
        omega
      · obtain ⟨m, h1, h2, h3⟩ := ih (c + 1) k h
        refine ⟨m, by omega, ?_, h3⟩
        have : eligCount (mm :: rest) = eligCount rest + 1 := by
          simp [eligCount, List.filter_cons, hm]
        omega

theorem taintFields_eq (owner clsName : String) :
    ∀ (fs : List FieldNode) (st : TaintState), KeysFrom fieldUid st.reg.fields st.ctr →
      taintFields owner clsName fs st =
        (traceOf clsName fs st.ctr,
         ⟨⟨st.reg.classes, st.reg.methods, st.reg.fields ++ fMints owner fs st.ctr⟩,
          st.ctr + nmCount fs⟩) := by
  intro fs
  induction fs with
  | nil =>
    intro st _
    simp [taintFields, traceOf, fMints, nmCount]
  | cons f rest ih =>
    intro st h
    rw [taintFields]
    by_cases hf : f.name == markerFieldName
    · rw [if_pos hf, ih _ h, traceOf, if_pos hf, fMints, if_pos hf]
      have : nmCount (f :: rest) = nmCount rest := by
        simp [nmCount, List.filter_cons, hf]
      rw [this]
    · rw [if_neg hf]
      have hfresh : fieldUid st.ctr ∉ st.reg.fields.map Prod.fst := by
        intro hmem
        obtain ⟨n, hn, he⟩ := h _ hmem
        exact absurd (fieldUid_injective he.symm) (by omega)
      have hrw := dictInsert_fresh (⟨owner, f.name, f.desc⟩ : MemberData) hfresh
      have hkeys : KeysFrom fieldUid (st.reg.fields ++ [(fieldUid st.ctr, (⟨owner, f.name, f.desc⟩ : MemberData))]) (st.ctr + 1) := by
        apply KeysFrom_append (KeysFrom_mono (Nat.le_succ _) h)
        intro k hk
        simp only [List.map_cons, List.map_nil, List.mem_singleton] at hk
        exact ⟨st.ctr, Nat.lt_succ_self _, hk⟩
      simp only [hrw]
      have hIH := ih ⟨⟨st.reg.classes, st.reg.methods,
          st.reg.fields ++ [(fieldUid st.ctr, (⟨owner, f.name, f.desc⟩ : MemberData))]⟩,
          st.ctr + 1⟩ hkeys
      rw [hIH, traceOf, if_neg hf, fMints, if_neg hf]
      have hc : nmCount (f :: rest) = nmCount rest + 1 := by
        simp [nmCount, List.filter_cons, hf]
      rw [hc]
      simp only [Prod.mk.injEq, TaintState.mk.injEq, Registry.mk.injEq, List.append_assoc,
        List.singleton_append]
      refine ⟨trivial, trivial, ?_⟩
      omega

theorem taintMethods_eq (owner : String) :
    ∀ (ms : List MethodNode) (st : TaintState), KeysFrom uuid4 st.reg.methods st.ctr →
      taintMethods owner ms st =
        (mApply ms st.ctr,
         ⟨⟨st.reg.classes, st.reg.methods ++ mMints owner ms st.ctr, st.reg.fields⟩,
          st.ctr + eligCount ms⟩) := by
  intro ms
  induction ms with
  | nil =>
    intro st _
    simp [taintMethods, mApply, mMints, eligCount]
  | cons m rest ih =>
    intro st h
    rw [taintMethods]
    by_cases hm : skipsTaint m
    · rw [if_pos hm, ih _ h, mApply, if_pos hm, mMints, if_pos hm]
      have : eligCount (m :: rest) = eligCount rest := by
        simp [eligCount, List.filter_cons, hm]
      rw [this]
    · rw [if_neg hm]
      have hfresh : uuid4 st.ctr ∉ st.reg.methods.map Prod.fst := by
        intro hmem
        obtain ⟨n, hn, he⟩ := h _ hmem
        exact absurd (uuid4_injective he.symm) (by omega)
      have hrw := dictInsert_fresh (⟨owner, m.name, m.desc⟩ : MemberData) hfresh
      have hkeys : KeysFrom uuid4 (st.reg.methods ++ [(uuid4 st.ctr, (⟨owner, m.name, m.desc⟩ : MemberData))]) (st.ctr + 1) := by
        apply KeysFrom_append (KeysFrom_mono (Nat.le_succ _) h)
        intro k hk
        simp only [List.map_cons, List.map_nil, List.mem_singleton] at hk
        exact ⟨st.ctr, Nat.lt_succ_self _, hk⟩
      simp only [hrw]
      have hIH := ih ⟨⟨st.reg.classes,
          st.reg.methods ++ [(uuid4 st.ctr, (⟨owner, m.name, m.desc⟩ : MemberData))],
          st.reg.fields⟩, st.ctr + 1⟩ hkeys
      rw [hIH, mApply, if_neg hm, mMints, if_neg hm]
      have hc : eligCount (m :: rest) = eligCount rest + 1 := by
        simp [eligCount, List.filter_cons, hm]
      rw [hc]
      simp only [Prod.mk.injEq, TaintState.mk.injEq, Registry.mk.injEq, List.append_assoc,
        List.singleton_append]
      refine ⟨trivial, trivial, ?_⟩
      omega

theorem taintClass_eq (cn : ClassNode) (st : TaintState) (h : RegIdx st) :
    taintClass cn st =
      (taintedClassSpec cn st.ctr,
       ⟨⟨st.reg.classes ++ [(uuid4 st.ctr, ⟨cn.name⟩)],
         st.reg.methods ++ mMints cn.name cn.methods (st.ctr + 1 + nmCount cn.fields),
         st.reg.fields ++ fMints cn.name cn.fields (st.ctr + 1)⟩,
        st.ctr + cmc cn⟩) := by
  obtain ⟨hC, hM, hF⟩ := h
  have hfresh : uuid4 st.ctr ∉ st.reg.classes.map Prod.fst := by
    intro hmem
    obtain ⟨n, hn, he⟩ := hC _ hmem
    exact absurd (uuid4_injective he.symm) (by omega)
  have hrw := dictInsert_fresh (⟨cn.name⟩ : ClassData) hfresh
  have hmarker : (⟨ACC_PUBLIC ||| ACC_STATIC ||| ACC_FINAL, markerFieldName,
      "Ljava/lang/String;", some (uuid4 st.ctr)⟩ : FieldNode).name = markerFieldName := rfl
  have hkeysF : KeysFrom fieldUid st.reg.fields (st.ctr + 1) :=
    KeysFrom_mono (Nat.le_succ _) hF
  have hTF := taintFields_eq cn.name cn.name
    (cn.fields ++ [⟨ACC_PUBLIC ||| ACC_STATIC ||| ACC_FINAL, markerFieldName,
      "Ljava/lang/String;", some (uuid4 st.ctr)⟩])
    ⟨⟨st.reg.classes ++ [(uuid4 st.ctr, (⟨cn.name⟩ : ClassData))], st.reg.methods,
      st.reg.fields⟩, st.ctr + 1⟩ hkeysF
  rw [traceOf_marker_append cn.name _ hmarker, fMints_marker_append cn.name _ hmarker,
    nmCount_marker_append _ _ hmarker] at hTF
  have hskips := traceOf_skips cn.name cn.fields (st.ctr + 1)
  have hkeysM : KeysFrom uuid4 st.reg.methods (st.ctr + 1 + nmCount cn.fields) :=
    KeysFrom_mono (by omega) hM
  have hTM := taintMethods_eq cn.name
    (cn.methods ++ traceOf cn.name cn.fields (st.ctr + 1))
    ⟨⟨st.reg.classes ++ [(uuid4 st.ctr, (⟨cn.name⟩ : ClassData))], st.reg.methods,
      st.reg.fields ++ fMints cn.name cn.fields (st.ctr + 1)⟩,
      st.ctr + 1 + nmCount cn.fields⟩ hkeysM
  rw [mMints_skip_append cn.name _ hskips, eligCount_skip_append _ _ hskips,
    mApply_skip_append _ hskips] at hTM
  simp only [taintClass, hrw]
  rw [hTF]
  dsimp only
  rw [hTM]
  dsimp only
  simp only [taintedClassSpec, markerFieldAt, Prod.mk.injEq, TaintState.mk.injEq,
    Registry.mk.injEq, ClassNode.mk.injEq, cmc]
  refine ⟨trivial, trivial, ?_⟩
  omega

theorem RegIdx_taintClass {cn : ClassNode} {st : TaintState} (h : RegIdx st) :
    RegIdx (taintClass cn st).2 := by
  rw [taintClass_eq cn st h]
  dsimp only
  obtain ⟨hC, hM, hF⟩ := h
  have hcmc : 1 ≤ cmc cn := by
    simp only [cmc]
    omega
  refine ⟨?_, ?_, ?_⟩
  · apply KeysFrom_append (KeysFrom_mono (show st.ctr ≤ st.ctr + cmc cn by omega) hC)
    intro k hk
    simp only [List.map_cons, List.map_nil, List.mem_singleton] at hk
    exact ⟨st.ctr, by omega, hk⟩
  · apply KeysFrom_append (KeysFrom_mono (show st.ctr ≤ st.ctr + cmc cn by omega) hM)
    intro k hk
    obtain ⟨m, h1, h2, h3⟩ := mMints_keys cn.name cn.methods (st.ctr + 1 + nmCount cn.fields) k hk
    refine ⟨m, ?_, h3⟩
    simp only [cmc] at *
    omega
  · apply KeysFrom_append (KeysFrom_mono (show st.ctr ≤ st.ctr + cmc cn by omega) hF)
    intro k hk
    obtain ⟨m, h1, h2, h3⟩ := fMints_keys cn.name cn.fields (st.ctr + 1) k hk
    refine ⟨m, ?_, h3⟩
    simp only [cmc] at *
    omega

theorem parsedOf_some {e : ZipEntry} {cn : ClassNode}
    (hcls : strEndsWith e.filename ".class" = true) (hp : parseClass e.content = some cn) :
    parsedOf e = some cn := by
  rw [parsedOf, if_pos hcls, hp]

theorem parsedOf_none_of_raw {e : ZipEntry}
    (hcls : strEndsWith e.filename ".class" = true) (hp : parseClass e.content = none) :
    parsedOf e = none := by
  rw [parsedOf, if_pos hcls, hp]

theorem parsedOf_none_of_name {e : ZipEntry}
    (hcls : strEndsWith e.filename ".class" = false) : parsedOf e = none := by
  rw [parsedOf, hcls]
  rfl

theorem taintEntryS_skip {e : ZipEntry} {st : TaintState} (h : parsedOf e = none) :
    taintEntryS e st = (e, st) := by
  rw [taintEntryS]
  by_cases hcls : strEndsWith e.filename ".class"
  · rw [parsedOf, if_pos hcls] at h
    rw [if_pos hcls, h]
  · rw [if_neg hcls]

theorem taintEntryS_class {e : ZipEntry} {st : TaintState} {cn : ClassNode}
    (hcls : strEndsWith e.filename ".class" = true) (hp : parseClass e.content = some cn) :
    taintEntryS e st =
      (⟨e.filename, EntryContent.classData (taintClass cn st).1⟩, (taintClass cn st).2) := by
  rw [taintEntryS, if_pos hcls, hp]

theorem taintLoopS_eq : ∀ (X : List ZipEntry) (st : TaintState), RegIdx st →
    taintLoopS X st =
      (jarOut X st.ctr,
       ⟨⟨st.reg.classes ++ jarCMints X st.ctr,
         st.reg.methods ++ jarMMints X st.ctr,
         st.reg.fields ++ jarFMints X st.ctr⟩,
        st.ctr + jarTotal X⟩) := by
  intro X
  induction X with
  | nil =>
    intro st _
    simp [taintLoopS, jarOut, jarCMints, jarMMints, jarFMints, jarTotal]
  | cons e rest ih =>
    intro st h
    rw [taintLoopS]
    cases hpo : parsedOf e with
    | none =>
      rw [taintEntryS_skip hpo]
      dsimp only
      rw [ih st h]
      dsimp only
      rw [jarOut, jarCMints, jarMMints, jarFMints, jarTotal, hpo]
    | some cn =>
      have hcls : strEndsWith e.filename ".class" = true := by
        by_contra hc
        rw [Bool.not_eq_true] at hc
        rw [parsedOf_none_of_name hc] at hpo
        exact Option.noConfusion hpo
      have hp : parseClass e.content = some cn := by
        rw [parsedOf, if_pos hcls] at hpo
        exact hpo
      rw [taintEntryS_class hcls hp, taintClass_eq cn st ⟨h.1, h.2.1, h.2.2⟩]
      have h' : RegIdx (⟨⟨st.reg.classes ++ [(uuid4 st.ctr, (⟨cn.name⟩ : ClassData))],
          st.reg.methods ++ mMints cn.name cn.methods (st.ctr + 1 + nmCount cn.fields),
          st.reg.fields ++ fMints cn.name cn.fields (st.ctr + 1)⟩,
          st.ctr + cmc cn⟩ : TaintState) := by
        have := @RegIdx_taintClass cn st ⟨h.1, h.2.1, h.2.2⟩
        rw [taintClass_eq cn st ⟨h.1, h.2.1, h.2.2⟩] at this
        exact this
      dsimp only
      rw [ih _ h']
      dsimp only
      rw [jarOut, jarCMints, jarMMints, jarFMints, jarTotal, hpo]
      dsimp only
      simp only [Prod.mk.injEq, TaintState.mk.injEq, Registry.mk.injEq, List.append_assoc,
        List.singleton_append]
      refine ⟨trivial, trivial, ?_⟩
      omega

/-! ## Distinct entry names: by-name reads return each entry's own bytes -/

theorem filter_name_eq {z : List ZipEntry} {e : ZipEntry}
    (hnd : (z.map (fun x => x.filename)).Nodup) (he : e ∈ z) :
    z.filter (fun x => x.filename == e.filename) = [e] := by
  induction z with
  | nil => exact absurd he (List.not_mem_nil _)
  | cons x rest ih =>
    simp only [List.map_cons, List.nodup_cons] at hnd
    rcases List.mem_cons.mp he with h | h
    · subst h
      rw [List.filter_cons, if_pos (by exact beq_self_eq_true _)]
      have hrest : rest.filter (fun y => y.filename == e.filename) = [] := by
        rw [List.filter_eq_nil_iff]
        intro y hy
        show ¬ (y.filename == e.filename) = true
        rw [Bool.not_eq_true, beq_eq_false_iff_ne]
        intro hc
        exact hnd.1 (hc ▸ List.mem_map_of_mem (fun x => x.filename) hy)
      rw [hrest]
    · have hne : x.filename ≠ e.filename := by
        intro hc
        exact hnd.1 (hc ▸ List.mem_map_of_mem (fun x => x.filename) h)
      rw [List.filter_cons, if_neg (by simp [hne])]
      exact ih hnd.2 h

theorem readName_self {z : List ZipEntry} {e : ZipEntry}
    (hnd : (z.map (fun x => x.filename)).Nodup) (he : e ∈ z) :
    readName z e.filename = e.content := by
  rw [readName, filter_name_eq hnd he]
  rfl

theorem taintLoop_eq_S {z : List ZipEntry} (hnd : (z.map (fun x => x.filename)).Nodup) :
    ∀ (l : List ZipEntry) (st : TaintState), (∀ x ∈ l, x ∈ z) →
      taintLoop z l st = taintLoopS l st := by
  intro l
  induction l with
  | nil => intro st _; rfl
  | cons item rest ih =>
    intro st hsub
    have hread : readName z item.filename = item.content :=
      readName_self hnd (hsub item (List.mem_cons_self item rest))
    have hentry : taintEntry z item st = taintEntryS item st := by
      rw [taintEntry, taintEntryS, hread]
    rcases hts : taintEntryS item st with ⟨e1, st1⟩
    rw [taintLoop, taintLoopS, hentry, hts]
    dsimp only
    rw [ih st1 (fun x hx => hsub x (List.mem_cons_of_mem item hx))]

theorem taint_jar_eq_S (z : List ZipEntry) (st : TaintState)
    (hnd : (z.map (fun x => x.filename)).Nodup) : taint_jar z st = taintLoopS z st :=
  taintLoop_eq_S hnd z st (fun _ hx => hx)

theorem tinyLoop_eq_S {z : List ZipEntry} (reg : Registry)
    (hnd : (z.map (fun x => x.filename)).Nodup) :
    ∀ (l : List ZipEntry), (∀ x ∈ l, x ∈ z) →
      (l.map (fun e => e.filename)).flatMap (tinyEntryRows z reg) =
        l.flatMap (tinyEntryRowsS reg) := by
  intro l
  induction l with
  | nil => intro _; rfl
  | cons item rest ih =>
    intro hsub
    have hread : readName z item.filename = item.content :=
      readName_self hnd (hsub item (List.mem_cons_self item rest))
    rw [List.map_cons, List.flatMap_cons, List.flatMap_cons,
      ih (fun x hx => hsub x (List.mem_cons_of_mem item hx))]
    have : tinyEntryRows z reg item.filename = tinyEntryRowsS reg item := by
      rw [tinyEntryRows, tinyEntryRowsS, hread]
    rw [this]

theorem generate_tiny_eq_S (z : List ZipEntry) (reg : Registry)
    (hnd : (z.map (fun x => x.filename)).Nodup) :
    generate_tiny z reg = "v1\tofficial\tnamed" :: z.flatMap (tinyEntryRowsS reg) := by
  rw [generate_tiny, tinyLoop_eq_S reg hnd z (fun _ hx => hx)]

theorem jarOut_names : ∀ (X : List ZipEntry) (n : Nat),
    (jarOut X n).map (fun e => e.filename) = X.map (fun e => e.filename) := by
  intro X
  induction X with
  | nil => intro n; rfl
  | cons e rest ih =>
    intro n
    rw [jarOut]
    cases hpo : parsedOf e with
    | none => rw [List.map_cons, List.map_cons, ih]
    | some cn => rw [List.map_cons, List.map_cons, ih]

/-! ## Bounds and distinctness of the minted registry keys -/

theorem jarCMints_keys : ∀ (X : List ZipEntry) (n : Nat),
    ∀ k ∈ (jarCMints X n).map Prod.fst, ∃ m, n ≤ m ∧ k = uuid4 m := by
  intro X
  induction X with
  | nil => intro n k hk; exact absurd hk (List.not_mem_nil _)
  | cons e rest ih =>
    intro n k hk
    rw [jarCMints] at hk
    cases hpo : parsedOf e with
    | none =>
      rw [hpo] at hk
      exact ih n k hk
    | some cn =>
      rw [hpo] at hk
      rcases List.mem_cons.mp hk with h | h
      · exact ⟨n, Nat.le_refl n, h⟩
      · obtain ⟨m, h1, h2⟩ := ih (n + cmc cn) k h
        exact ⟨m, by omega, h2⟩

theorem jarFMints_keys : ∀ (X : List ZipEntry) (n : Nat),
    ∀ k ∈ (jarFMints X n).map Prod.fst, ∃ m, n ≤ m ∧ k = fieldUid m := by
  intro X
  induction X with
  | nil => intro n k hk; exact absurd hk (List.not_mem_nil _)
  | cons e rest ih =>
    intro n k hk
    rw [jarFMints] at hk
    cases hpo : parsedOf e with
    | none =>
      rw [hpo] at hk
      exact ih n k hk
    | some cn =>
      rw [hpo] at hk
      rw [List.map_append, List.mem_append] at hk
      rcases hk with h | h
      · obtain ⟨m, h1, _, h3⟩ := fMints_keys cn.name cn.fields (n + 1) k h
        exact ⟨m, by omega, h3⟩
      · obtain ⟨m, h1, h2⟩ := ih (n + cmc cn) k h
        exact ⟨m, by omega, h2⟩

theorem jarMMints_keys : ∀ (X : List ZipEntry) (n : Nat),
    ∀ k ∈ (jarMMints X n).map Prod.fst, ∃ m, n ≤ m ∧ k = uuid4 m := by
  intro X
  induction X with
  | nil => intro n k hk; exact absurd hk (List.not_mem_nil _)
  | cons e rest ih =>
    intro n k hk
    rw [jarMMints] at hk
    cases hpo : parsedOf e with
    | none =>
      rw [hpo] at hk
      exact ih n k hk
    | some cn =>
      rw [hpo] at hk
      rw [List.map_append, List.mem_append] at hk
      rcases hk with h | h
      · obtain ⟨m, h1, _, h3⟩ := mMints_keys cn.name cn.methods (n + 1 + nmCount cn.fields) k h
        exact ⟨m, by omega, h3⟩
      · obtain ⟨m, h1, h2⟩ := ih (n + cmc cn) k h
        exact ⟨m, by omega, h2⟩

theorem fMints_keys_nodup (owner : String) :
    ∀ (fs : List FieldNode) (c : Nat), ((fMints owner fs c).map Prod.fst).Nodup := by
  intro fs
  induction fs with
  | nil => intro c; exact List.nodup_nil
  | cons f rest ih =>
    intro c
    rw [fMints]
    by_cases hf : f.name == markerFieldName
    · rw [if_pos hf]; exact ih c
    · rw [if_neg hf, List.map_cons, List.nodup_cons]
      refine ⟨?_, ih (c + 1)⟩
      intro hmem
      obtain ⟨m, h1, _, h3⟩ := fMints_keys owner rest (c + 1) _ hmem
      exact absurd (fieldUid_injective h3) (by omega)

theorem mMints_keys_nodup (owner : String) :
    ∀ (ms : List MethodNode) (c : Nat), ((mMints owner ms c).map Prod.fst).Nodup := by
  intro ms
  induction ms with
  | nil => intro c; exact List.nodup_nil
  | cons m rest ih =>
    intro c
    rw [mMints]
    by_cases hm : skipsTaint m
    · rw [if_pos hm]; exact ih c
    · rw [if_neg hm, List.map_cons, List.nodup_cons]
      refine ⟨?_, ih (c + 1)⟩
      intro hmem
      obtain ⟨m', h1, _, h3⟩ := mMints_keys owner rest (c + 1) _ hmem
      exact absurd (uuid4_injective h3) (by omega)

theorem jarCMints_keys_nodup : ∀ (X : List ZipEntry) (n : Nat),
    ((jarCMints X n).map Prod.fst).Nodup := by
  intro X
  induction X with
  | nil => intro n; exact List.nodup_nil
  | cons e rest ih =>
    intro n
    rw [jarCMints]
    cases hpo : parsedOf e with
    | none => exact ih n
    | some cn =>
      rw [List.map_cons, List.nodup_cons]
      refine ⟨?_, ih (n + cmc cn)⟩
      intro hmem
      obtain ⟨m, h1, h2⟩ := jarCMints_keys rest (n + cmc cn) _ hmem
      have hcmc : 1 ≤ cmc cn := by
        simp only [cmc]
        omega
      exact absurd (uuid4_injective h2) (by omega)

theorem jarFMints_keys_nodup : ∀ (X : List ZipEntry) (n : Nat),
    ((jarFMints X n).map Prod.fst).Nodup := by
  intro X
  induction X with
  | nil => intro n; exact List.nodup_nil
  | cons e rest ih =>
    intro n
    rw [jarFMints]
    cases hpo : parsedOf e with
    | none => exact ih n
    | some cn =>
      rw [List.map_append]
      rw [List.nodup_append]
      refine ⟨fMints_keys_nodup cn.name cn.fields (n + 1), ih (n + cmc cn), ?_⟩
      intro k hk1 hk2
      obtain ⟨m, h1, h2, h3⟩ := fMints_keys cn.name cn.fields (n + 1) k hk1
      obtain ⟨m', h1', h3'⟩ := jarFMints_keys rest (n + cmc cn) k hk2
      have : m = m' := fieldUid_injective (h3 ▸ h3')
      simp only [cmc] at h1'
      omega

theorem jarMMints_keys_nodup : ∀ (X : List ZipEntry) (n : Nat),
    ((jarMMints X n).map Prod.fst).Nodup := by
  intro X
  induction X with
  | nil => intro n; exact List.nodup_nil
  | cons e rest ih =>
    intro n
    rw [jarMMints]
    cases hpo : parsedOf e with
    | none => exact ih n
    | some cn =>
      rw [List.map_append]
      rw [List.nodup_append]
      refine ⟨mMints_keys_nodup cn.name cn.methods (n + 1 + nmCount cn.fields),
        ih (n + cmc cn), ?_⟩
      intro k hk1 hk2
      obtain ⟨m, h1, h2, h3⟩ := mMints_keys cn.name cn.methods (n + 1 + nmCount cn.fields) k hk1
      obtain ⟨m', h1', h3'⟩ := jarMMints_keys rest (n + cmc cn) k hk2
      have : m = m' := uuid4_injective (h3 ▸ h3')
      simp only [cmc] at h1' h2
      omega

theorem jarCM_disjoint : ∀ (X : List ZipEntry) (n : Nat) (k : String),
    k ∈ (jarCMints X n).map Prod.fst → k ∈ (jarMMints X n).map Prod.fst → False := by
  intro X
  induction X with
  | nil => intro n k hk _; exact absurd hk (List.not_mem_nil _)
  | cons e rest ih =>
    intro n k hk1 hk2
    rw [jarCMints] at hk1
    rw [jarMMints] at hk2
    cases hpo : parsedOf e with
    | none =>
      rw [hpo] at hk1 hk2
      exact ih n k hk1 hk2
    | some cn =>
      rw [hpo] at hk1 hk2
      rw [List.map_append, List.mem_append] at hk2
      simp only [List.map_cons, List.mem_cons] at hk1
      rcases hk1 with h1 | h1
      · rcases hk2 with h2 | h2
        · obtain ⟨m, hm1, hm2, hm3⟩ := mMints_keys cn.name cn.methods (n + 1 + nmCount cn.fields) k h2
          have : n = m := uuid4_injective (h1 ▸ hm3)
          omega
        · obtain ⟨m, hm1, hm3⟩ := jarMMints_keys rest (n + cmc cn) k h2
          have : n = m := uuid4_injective (h1 ▸ hm3)
          have hcmc : 1 ≤ cmc cn := by
            simp only [cmc]
            omega
          omega
      · rcases hk2 with h2 | h2
        · obtain ⟨m, hm1, hm3⟩ := jarCMints_keys rest (n + cmc cn) k h1
          obtain ⟨m', hm1', hm2', hm3'⟩ := mMints_keys cn.name cn.methods (n + 1 + nmCount cn.fields) k h2
          have : m = m' := uuid4_injective (hm3 ▸ hm3')
          simp only [cmc] at hm1
          omega
        · exact ih (n + cmc cn) k h1 h2

/-! ## Behaviour of the extraction scans on synthesized members -/

theorem string_mk_data (s : String) : String.mk s.data = s := rfl

theorem firstFieldInsnName_trace (clsName : String) (f : FieldNode) (u : String) :
    firstFieldInsnName (fieldTraceMethod clsName f u).instructions = some f.name := by
  simp only [fieldTraceMethod]
  by_cases hs : (f.access &&& ACC_STATIC != 0) = true
  · rw [if_pos hs, if_pos hs]
    rfl
  · rw [if_neg hs, if_neg hs]
    rfl

theorem firstLdc_trace (clsName : String) (f : FieldNode) (u : String) :
    firstLdc (fieldTraceMethod clsName f u).instructions = none := by
  simp only [fieldTraceMethod]
  by_cases hs : (f.access &&& ACC_STATIC != 0) = true
  · rw [if_pos hs, if_pos hs]
    rfl
  · rw [if_neg hs, if_neg hs]
    rfl

theorem fieldRowsOf_trace (reg : Registry) (ocn cls : String) (f : FieldNode) (k : Nat)
    (d : MemberData) (hget : dictGet (fieldUid k) reg.fields = some d) :
    fieldRowsOf reg ocn (fieldTraceMethod cls f (fieldUid k)) =
      ["FIELD\t" ++ ocn ++ "\t" ++ d.desc ++ "\t" ++ d.name ++ "\t" ++ f.name] := by
  have hname : (fieldTraceMethod cls f (fieldUid k)).name = traceTag ++ fieldUid k := rfl
  rw [fieldRowsOf, hname, if_pos (strContains_of_eq_append _ _ _ rfl)]
  rw [pySplit_tag_append _ (not_contains_fieldUid k)]
  rw [show ([[], (fieldUid k).data].getD 1 [] : List Char) = (fieldUid k).data from rfl]
  rw [string_mk_data, firstFieldInsnName_trace]
  dsimp only
  rw [hget]

theorem methodRowsOf_trace (reg : Registry) (ocn cls : String) (f : FieldNode) (u : String) :
    methodRowsOf reg ocn (fieldTraceMethod cls f u) = [] := by
  rw [methodRowsOf, firstLdc_trace]

theorem fieldRowsOf_nontrace (reg : Registry) (ocn : String) (m : MethodNode)
    (h : strContains m.name traceTag = false) : fieldRowsOf reg ocn m = [] := by
  rw [fieldRowsOf, h]
  rfl

theorem firstLdc_mem : ∀ (l : List Insn) (c : String), firstLdc l = some c →
    Insn.ldcInsnNode c ∈ l := by
  intro l
  induction l with
  | nil => intro c h; exact Option.noConfusion h
  | cons i rest ih =>
    intro c h
    cases i with
    | ldcInsnNode c' =>
      rw [firstLdc] at h
      rw [Option.some.injEq] at h
      subst h
      exact List.mem_cons_self _ _
    | insnNode o => exact List.mem_cons_of_mem _ (ih c h)
    | fieldInsnNode o ow na de => exact List.mem_cons_of_mem _ (ih c h)
    | typeInsnNode o de => exact List.mem_cons_of_mem _ (ih c h)
    | methodInsnNode o ow na de it => exact List.mem_cons_of_mem _ (ih c h)

theorem methodRowsOf_miss (reg : Registry) (ocn : String) (m : MethodNode)
    (hkeys : ∀ k ∈ reg.methods.map Prod.fst, ∃ j, k = uuid4 j)
    (hbenign : m.instructions.all (fun i => !(insnUidLike i)) = true) :
    methodRowsOf reg ocn m = [] := by
  rw [methodRowsOf]
  cases hfl : firstLdc m.instructions with
  | none => rfl
  | some c =>
    have hmem := firstLdc_mem m.instructions c hfl
    have hlike : insnUidLike (Insn.ldcInsnNode c) = false := by
      have := List.all_eq_true.mp hbenign _ hmem
      simp only [Bool.not_eq_true'] at this
      exact this
    rw [insnUidLike] at hlike
    have hnone : dictGet c reg.methods = none := by
      apply dictGet_eq_none
      intro hc
      obtain ⟨j, hj⟩ := hkeys c hc
      rw [hj, uuid4_uidLike] at hlike
      exact Bool.noConfusion hlike
    dsimp only
    rw [hnone]

theorem firstLdc_carrier (u : String) : firstLdc (carrierBody u) = some u := rfl

theorem methodRowsOf_carrier (reg : Registry) (ocn : String) (m : MethodNode) (c : Nat)
    (d : MemberData) (hget : dictGet (uuid4 c) reg.methods = some d) :
    methodRowsOf reg ocn
        { m with instructions := carrierBody (uuid4 c), tryCatchBlocks := 0, localVariables := 0 } =
      ["METHOD\t" ++ ocn ++ "\t" ++ d.desc ++ "\t" ++ d.name ++ "\t" ++ m.name] := by
  rw [methodRowsOf]
  dsimp only
  rw [firstLdc_carrier]
  dsimp only
  rw [hget]

/-! ## Rows emitted for one tainted class -/

theorem fieldRowsOf_mApply (reg : Registry) (ocn : String) :
    ∀ (ms : List MethodNode) (c : Nat), (∀ m ∈ ms, strContains m.name "$$mcp" = false) →
      (mApply ms c).flatMap (fieldRowsOf reg ocn) = [] := by
  intro ms
  induction ms with
  | nil => intro c _; rfl
  | cons m rest ih =>
    intro c hpr
    rw [mApply]
    by_cases hm : skipsTaint m
    · rw [if_pos hm, List.flatMap_cons,
        fieldRowsOf_nontrace _ _ _ (not_strContains_traceTag (hpr m (List.mem_cons_self m rest))),
        ih c (fun x hx => hpr x (List.mem_cons_of_mem m hx))]
      rfl
    · rw [if_neg hm, List.flatMap_cons]
      have hrow : fieldRowsOf reg ocn
          { m with instructions := carrierBody (uuid4 c), tryCatchBlocks := 0, localVariables := 0 } = [] :=
        fieldRowsOf_nontrace _ _ _ (not_strContains_traceTag (hpr m (List.mem_cons_self m rest)))
      rw [hrow, ih (c + 1) (fun x hx => hpr x (List.mem_cons_of_mem m hx))]
      rfl

theorem methodRowsOf_traceOf (reg : Registry) (ocn cls : String) :
    ∀ (fs : List FieldNode) (c : Nat),
      (traceOf cls fs c).flatMap (methodRowsOf reg ocn) = [] := by
  intro fs
  induction fs with
  | nil => intro c; rfl
  | cons f rest ih =>
    intro c
    rw [traceOf]
    by_cases hf : f.name == markerFieldName
    · rw [if_pos hf]
      exact ih c
    · rw [if_neg hf, List.flatMap_cons, methodRowsOf_trace, ih (c + 1)]
      rfl

theorem fieldRowsOf_traceOf (reg : Registry) (ocn owner cls : String)
    (hnd : (reg.fields.map Prod.fst).Nodup) :
    ∀ (fs : List FieldNode) (c : Nat), (∀ p ∈ fMints owner fs c, p ∈ reg.fields) →
      (traceOf cls fs c).flatMap (fieldRowsOf reg ocn) =
        (fs.filter (fun f => !(f.name == markerFieldName))).map
          (fun f => "FIELD\t" ++ ocn ++ "\t" ++ f.desc ++ "\t" ++ f.name ++ "\t" ++ f.name) := by
  intro fs
  induction fs with
  | nil => intro c _; rfl
  | cons f rest ih =>
    intro c hmem
    rw [traceOf, fMints] at *
    by_cases hf : f.name == markerFieldName
    · rw [if_pos hf]
      rw [if_pos hf] at hmem
      rw [List.filter_cons, if_neg (by simp [hf])]
      exact ih c hmem
    · rw [if_neg hf]
      rw [if_neg hf] at hmem
      rw [List.flatMap_cons]
      have hget := dictGet_of_mem hnd
        (hmem _ (List.mem_cons_self (fieldUid c, (⟨owner, f.name, f.desc⟩ : MemberData)) _))
      rw [fieldRowsOf_trace reg ocn cls f c _ hget]
      rw [ih (c + 1) (fun p hp => hmem p (List.mem_cons_of_mem _ hp))]
      rw [List.filter_cons, if_pos (by simp [hf])]
      rfl

theorem methodRowsOf_mApply (reg : Registry) (ocn owner : String)
    (hnd : (reg.methods.map Prod.fst).Nodup)
    (hkeys : ∀ k ∈ reg.methods.map Prod.fst, ∃ j, k = uuid4 j) :
    ∀ (ms : List MethodNode) (c : Nat),
      (∀ p ∈ mMints owner ms c, p ∈ reg.methods) →
      (∀ m ∈ ms, (m.instructions.all (fun i => !(insnUidLike i))) = true) →
      (mApply ms c).flatMap (methodRowsOf reg ocn) =
        (ms.filter (fun m => !(skipsTaint m))).map
          (fun m => "METHOD\t" ++ ocn ++ "\t" ++ m.desc ++ "\t" ++ m.name ++ "\t" ++ m.name) := by
  intro ms
  induction ms with
  | nil => intro c _ _; rfl
  | cons m rest ih =>
    intro c hmem hben
    rw [mApply, mMints] at *
    by_cases hm : skipsTaint m
    · rw [if_pos hm, List.flatMap_cons,
        methodRowsOf_miss reg ocn m hkeys (hben m (List.mem_cons_self m rest))]
      rw [if_pos hm] at hmem
      rw [ih c hmem (fun x hx => hben x (List.mem_cons_of_mem m hx))]
      rw [List.filter_cons, if_neg (by simp [hm])]
      rfl
    · rw [if_neg hm, List.flatMap_cons]
      rw [if_neg hm] at hmem
      have hget := dictGet_of_mem hnd
        (hmem _ (List.mem_cons_self (uuid4 c, (⟨owner, m.name, m.desc⟩ : MemberData)) _))
      rw [methodRowsOf_carrier reg ocn m c _ hget]
      rw [ih (c + 1) (fun p hp => hmem p (List.mem_cons_of_mem _ hp))
        (fun x hx => hben x (List.mem_cons_of_mem m hx))]
      rw [List.filter_cons, if_pos (by simp [hm])]
      rfl

theorem classUidOf_tainted (cn : ClassNode) (n : Nat)
    (hpr : ∀ f ∈ cn.fields, strEndsWith f.name markerFieldName = false) :
    classUidOf (taintedClassSpec cn n) = some (uuid4 n) := by
  rw [classUidOf]
  have hfields : (taintedClassSpec cn n).fields = cn.fields ++ [markerFieldAt n] := rfl
  rw [hfields, List.find?_append]
  have h1 : cn.fields.find? (fun f => strEndsWith f.name markerFieldName) = none := by
    rw [List.find?_eq_none]
    intro f hf
    simp [hpr f hf]
  rw [h1, Option.none_or]
  have h2 : List.find? (fun f => strEndsWith f.name markerFieldName) [markerFieldAt n]
      = some (markerFieldAt n) := by
    apply List.find?_cons_of_pos
    exact (by decide : strEndsWith markerFieldName markerFieldName = true)
  rw [h2]
  rfl

theorem classPristine_fields {cn : ClassNode} (hpr : classPristine cn = true) :
    ∀ f ∈ cn.fields, strEndsWith f.name markerFieldName = false := by
  rw [classPristine, Bool.and_eq_true] at hpr
  intro f hf
  have := List.all_eq_true.mp hpr.1 f hf
  simpa using this

theorem classPristine_names {cn : ClassNode} (hpr : classPristine cn = true) :
    ∀ m ∈ cn.methods, strContains m.name "$$mcp" = false := by
  rw [classPristine, Bool.and_eq_true] at hpr
  intro m hm
  have := List.all_eq_true.mp hpr.2 m hm
  rw [methodPristine, Bool.and_eq_true] at this
  simpa using this.1

theorem classPristine_benign {cn : ClassNode} (hpr : classPristine cn = true) :
    ∀ m ∈ cn.methods, (m.instructions.all (fun i => !(insnUidLike i))) = true := by
  rw [classPristine, Bool.and_eq_true] at hpr
  intro m hm
  have := List.all_eq_true.mp hpr.2 m hm
  rw [methodPristine, Bool.and_eq_true] at this
  exact this.2

theorem tinyClassRows_tainted (reg : Registry) (cn : ClassNode) (n : Nat)
    (hndC : (reg.classes.map Prod.fst).Nodup)
    (hndF : (reg.fields.map Prod.fst).Nodup)
    (hndM : (reg.methods.map Prod.fst).Nodup)
    (hkeysM : ∀ k ∈ reg.methods.map Prod.fst, ∃ j, k = uuid4 j)
    (hmemC : (uuid4 n, (⟨cn.name⟩ : ClassData)) ∈ reg.classes)
    (hmemF : ∀ p ∈ fMints cn.name cn.fields (n + 1), p ∈ reg.fields)
    (hmemM : ∀ p ∈ mMints cn.name cn.methods (n + 1 + nmCount cn.fields), p ∈ reg.methods)
    (hpr : classPristine cn = true) :
    tinyClassRows reg (taintedClassSpec cn n) = idClassRows cn := by
  rw [tinyClassRows]
  rw [classUidOf_tainted cn n (classPristine_fields hpr)]
  have htr : uidTruthy (some (uuid4 n)) = true := by
    simp [uidTruthy, uuid4_ne_empty n]
  rw [htr, if_pos rfl]
  rw [show (some (uuid4 n)).getD "" = uuid4 n from rfl]
  rw [dictGet_of_mem hndC hmemC]
  dsimp only
  have hname : (taintedClassSpec cn n).name = cn.name := rfl
  have hms : (taintedClassSpec cn n).methods =
      mApply cn.methods (n + 1 + nmCount cn.fields) ++ traceOf cn.name cn.fields (n + 1) := rfl
  rw [hname, hms]
  rw [List.flatMap_append, List.flatMap_append]
  rw [fieldRowsOf_mApply reg cn.name cn.methods (n + 1 + nmCount cn.fields)
    (classPristine_names hpr)]
  rw [fieldRowsOf_traceOf reg cn.name cn.name cn.name hndF cn.fields (n + 1) hmemF]
  rw [methodRowsOf_traceOf reg cn.name cn.name cn.fields (n + 1)]
  rw [methodRowsOf_mApply reg cn.name cn.name hndM hkeysM cn.methods
    (n + 1 + nmCount cn.fields) hmemM (classPristine_benign hpr)]
  rw [idClassRows]
  rw [List.nil_append, List.append_nil]

/-! ## Rows emitted for a whole tainted archive -/

theorem tinyEntryRowsS_skip (reg : Registry) (e : ZipEntry) (h : parsedOf e = none) :
    tinyEntryRowsS reg e = [] := by
  rw [tinyEntryRowsS]
  by_cases hcls : strEndsWith e.filename ".class"
  · rw [parsedOf, if_pos hcls] at h
    rw [if_pos hcls, h]
  · rw [if_neg hcls]

theorem parsedOf_class {e : ZipEntry} {cn : ClassNode} (h : parsedOf e = some cn) :
    strEndsWith e.filename ".class" = true ∧ parseClass e.content = some cn := by
  by_cases hcls : strEndsWith e.filename ".class"
  · rw [parsedOf, if_pos hcls] at h
    exact ⟨hcls, h⟩
  · rw [parsedOf_none_of_name (by simpa using hcls)] at h
    exact Option.noConfusion h

theorem jarPristine_cons_some {e : ZipEntry} {rest : List ZipEntry} {cn : ClassNode}
    (hpo : parsedOf e = some cn) (h : jarPristine (e :: rest) = true) :
    classPristine cn = true ∧ jarPristine rest = true := by
  rw [jarPristine, parsedClasses, List.filterMap_cons, hpo] at h
  rw [List.all_cons, Bool.and_eq_true] at h
  exact ⟨h.1, h.2⟩

theorem jarPristine_cons_none {e : ZipEntry} {rest : List ZipEntry}
    (hpo : parsedOf e = none) (h : jarPristine (e :: rest) = true) :
    jarPristine rest = true := by
  rw [jarPristine, parsedClasses, List.filterMap_cons, hpo] at h
  exact h

theorem tinyRows_jarOut (reg : Registry)
    (hndC : (reg.classes.map Prod.fst).Nodup)
    (hndF : (reg.fields.map Prod.fst).Nodup)
    (hndM : (reg.methods.map Prod.fst).Nodup)
    (hkeysM : ∀ k ∈ reg.methods.map Prod.fst, ∃ j, k = uuid4 j) :
    ∀ (X : List ZipEntry) (n : Nat),
      (∀ p ∈ jarCMints X n, p ∈ reg.classes) →
      (∀ p ∈ jarFMints X n, p ∈ reg.fields) →
      (∀ p ∈ jarMMints X n, p ∈ reg.methods) →
      jarPristine X = true →
      (jarOut X n).flatMap (tinyEntryRowsS reg) = identityRows X := by
  intro X
  induction X with
  | nil => intro n _ _ _ _; rfl
  | cons e rest ih =>
    intro n hsC hsF hsM hpr
    cases hpo : parsedOf e with
    | none =>
      rw [jarOut, hpo, List.flatMap_cons, tinyEntryRowsS_skip reg e hpo]
      rw [identityRows, hpo]
      rw [List.nil_append, List.nil_append]
      apply ih n
      · intro p hp
        apply hsC
        rw [jarCMints, hpo]
        exact hp
      · intro p hp
        apply hsF
        rw [jarFMints, hpo]
        exact hp
      · intro p hp
        apply hsM
        rw [jarMMints, hpo]
        exact hp
      · exact jarPristine_cons_none hpo hpr
    | some cn =>
      obtain ⟨hcls, _⟩ := parsedOf_class hpo
      rw [jarOut, hpo]
      dsimp only
      rw [List.flatMap_cons]
      have hrows : tinyEntryRowsS reg ⟨e.filename, EntryContent.classData (taintedClassSpec cn n)⟩
          = tinyClassRows reg (taintedClassSpec cn n) := by
        rw [tinyEntryRowsS]
        dsimp only
        rw [if_pos hcls]
        rfl
      obtain ⟨hprc, hprr⟩ := jarPristine_cons_some hpo hpr
      have hmemC : (uuid4 n, (⟨cn.name⟩ : ClassData)) ∈ reg.classes := by
        apply hsC
        rw [jarCMints, hpo]
        exact List.mem_cons_self _ _
      have hmemF : ∀ p ∈ fMints cn.name cn.fields (n + 1), p ∈ reg.fields := by
        intro p hp
        apply hsF
        rw [jarFMints, hpo]
        exact List.mem_append_left _ hp
      have hmemM : ∀ p ∈ mMints cn.name cn.methods (n + 1 + nmCount cn.fields),
          p ∈ reg.methods := by
        intro p hp
        apply hsM
        rw [jarMMints, hpo]
        exact List.mem_append_left _ hp
      rw [hrows, tinyClassRows_tainted reg cn n hndC hndF hndM hkeysM hmemC hmemF hmemM hprc]
      have hC' : ∀ p ∈ jarCMints rest (n + cmc cn), p ∈ reg.classes := by
        intro p hp
        apply hsC
        rw [jarCMints, hpo]
        exact List.mem_cons_of_mem _ hp
      have hF' : ∀ p ∈ jarFMints rest (n + cmc cn), p ∈ reg.fields := by
        intro p hp
        apply hsF
        rw [jarFMints, hpo]
        exact List.mem_append_right _ hp
      have hM' : ∀ p ∈ jarMMints rest (n + cmc cn), p ∈ reg.methods := by
        intro p hp
        apply hsM
        rw [jarMMints, hpo]
        exact List.mem_append_right _ hp
      rw [ih (n + cmc cn) hC' hF' hM' hprr]
      rw [identityRows, hpo]

/-! ## Counting rows by their tag -/

theorem strStartsWith_extend {s : String} (t p : String) (h : strStartsWith s p = true) :
    strStartsWith (s ++ t) p = true := by
  rw [strStartsWith, String.data_append]
  rw [strStartsWith] at h
  rw [List.isPrefixOf_iff_prefix] at h ⊢
  exact h.trans (List.prefix_append _ _)

theorem startsWith_head_ne {s p q : String} {a b : Char} {la lb : List Char}
    (hp : p.data = a :: la) (hq : q.data = b :: lb) (hab : b ≠ a)
    (h : strStartsWith s p = true) : strStartsWith s q = false := by
  rw [strStartsWith, hp] at h
  rcases hsd : s.data with _ | ⟨c, tl⟩
  · rw [hsd] at h
    exact absurd h (by simp)
  · rw [hsd, List.isPrefixOf_cons₂, Bool.and_eq_true, beq_iff_eq] at h
    rw [strStartsWith, hsd, hq]
    exact isPrefixOf_cons_ne _ _ (h.1 ▸ hab)

theorem classRow_starts (x1 x2 : String) :
    strStartsWith ("CLASS\t" ++ x1 ++ "\t" ++ x2) "CLASS\t" = true := by
  apply strStartsWith_extend
  apply strStartsWith_extend
  exact strStartsWith_append _ _

theorem memberRow_starts (tag x1 x2 x3 x4 : String) :
    strStartsWith (tag ++ x1 ++ "\t" ++ x2 ++ "\t" ++ x3 ++ "\t" ++ x4) tag = true := by
  apply strStartsWith_extend
  apply strStartsWith_extend
  apply strStartsWith_extend
  apply strStartsWith_extend
  apply strStartsWith_extend
  apply strStartsWith_extend
  exact strStartsWith_append _ _

theorem parsedClasses_cons_some {e : ZipEntry} {cn : ClassNode} {rest : List ZipEntry}
    (hpo : parsedOf e = some cn) : parsedClasses (e :: rest) = cn :: parsedClasses rest := by
  rw [parsedClasses, List.filterMap_cons, hpo]
  rfl

theorem parsedClasses_cons_none {e : ZipEntry} {rest : List ZipEntry}
    (hpo : parsedOf e = none) : parsedClasses (e :: rest) = parsedClasses rest := by
  rw [parsedClasses, List.filterMap_cons, hpo]
  rfl

theorem countTag_idClassRows_class (cn : ClassNode) :
    countTag "CLASS\t" (idClassRows cn) = 1 := by
  rw [idClassRows, countTag, List.countP_cons]
  have hz : List.countP (fun r => strStartsWith r "CLASS\t")
      ((cn.fields.filter (fun f => !(f.name == markerFieldName))).map
          (fun f => "FIELD\t" ++ cn.name ++ "\t" ++ f.desc ++ "\t" ++ f.name ++ "\t" ++ f.name)
        ++ (cn.methods.filter (fun m => !(skipsTaint m))).map
          (fun m => "METHOD\t" ++ cn.name ++ "\t" ++ m.desc ++ "\t" ++ m.name ++ "\t" ++ m.name))
      = 0 := by
    rw [List.countP_eq_zero]
    intro r hr
    rcases List.mem_append.mp hr with h | h
    · obtain ⟨f, _, rfl⟩ := List.mem_map.mp h
      simp only [Bool.not_eq_true]
      exact startsWith_head_ne rfl rfl (by decide) (memberRow_starts "FIELD\t" _ _ _ _)
    · obtain ⟨m, _, rfl⟩ := List.mem_map.mp h
      simp only [Bool.not_eq_true]
      exact startsWith_head_ne rfl rfl (by decide) (memberRow_starts "METHOD\t" _ _ _ _)
  rw [hz, classRow_starts]
  simp

theorem countTag_idClassRows_field (cn : ClassNode) :
    countTag "FIELD\t" (idClassRows cn) = nmCount cn.fields := by
  rw [idClassRows, countTag, List.countP_cons]
  rw [show strStartsWith ("CLASS\t" ++ cn.name ++ "\t" ++ cn.name) "FIELD\t" = false from
    startsWith_head_ne rfl rfl (by decide) (classRow_starts _ _)]
  rw [List.countP_append]
  have h1 : List.countP (fun r => strStartsWith r "FIELD\t")
      ((cn.fields.filter (fun f => !(f.name == markerFieldName))).map
        (fun f => "FIELD\t" ++ cn.name ++ "\t" ++ f.desc ++ "\t" ++ f.name ++ "\t" ++ f.name))
      = nmCount cn.fields := by
    have hall : ∀ r ∈ (cn.fields.filter (fun f => !(f.name == markerFieldName))).map
        (fun f => "FIELD\t" ++ cn.name ++ "\t" ++ f.desc ++ "\t" ++ f.name ++ "\t" ++ f.name),
        strStartsWith r "FIELD\t" = true := by
      intro r hr
      obtain ⟨f, _, rfl⟩ := List.mem_map.mp hr
      exact memberRow_starts "FIELD\t" _ _ _ _
    rw [List.countP_eq_length.mpr hall, List.length_map]
    rfl
  have h2 : List.countP (fun r => strStartsWith r "FIELD\t")
      ((cn.methods.filter (fun m => !(skipsTaint m))).map
        (fun m => "METHOD\t" ++ cn.name ++ "\t" ++ m.desc ++ "\t" ++ m.name ++ "\t" ++ m.name))
      = 0 := by
    rw [List.countP_eq_zero]
    intro r hr
    obtain ⟨m, _, rfl⟩ := List.mem_map.mp hr
    simp only [Bool.not_eq_true]
    exact startsWith_head_ne rfl rfl (by decide) (memberRow_starts "METHOD\t" _ _ _ _)
  rw [h1, h2]
  simp

theorem countTag_idClassRows_method (cn : ClassNode) :
    countTag "METHOD\t" (idClassRows cn) = eligCount cn.methods := by
  rw [idClassRows, countTag, List.countP_cons]
  rw [show strStartsWith ("CLASS\t" ++ cn.name ++ "\t" ++ cn.name) "METHOD\t" = false from
    startsWith_head_ne rfl rfl (by decide) (classRow_starts _ _)]
  rw [List.countP_append]
  have h1 : List.countP (fun r => strStartsWith r "METHOD\t")
      ((cn.fields.filter (fun f => !(f.name == markerFieldName))).map
        (fun f => "FIELD\t" ++ cn.name ++ "\t" ++ f.desc ++ "\t" ++ f.name ++ "\t" ++ f.name))
      = 0 := by
    rw [List.countP_eq_zero]
    intro r hr
    obtain ⟨f, _, rfl⟩ := List.mem_map.mp hr
    simp only [Bool.not_eq_true]
    exact startsWith_head_ne rfl rfl (by decide) (memberRow_starts "FIELD\t" _ _ _ _)
  have h2 : List.countP (fun r => strStartsWith r "METHOD\t")
      ((cn.methods.filter (fun m => !(skipsTaint m))).map
        (fun m => "METHOD\t" ++ cn.name ++ "\t" ++ m.desc ++ "\t" ++ m.name ++ "\t" ++ m.name))
      = eligCount cn.methods := by
    have hall : ∀ r ∈ (cn.methods.filter (fun m => !(skipsTaint m))).map
        (fun m => "METHOD\t" ++ cn.name ++ "\t" ++ m.desc ++ "\t" ++ m.name ++ "\t" ++ m.name),
        strStartsWith r "METHOD\t" = true := by
      intro r hr
      obtain ⟨m, _, rfl⟩ := List.mem_map.mp hr
      exact memberRow_starts "METHOD\t" _ _ _ _
    rw [List.countP_eq_length.mpr hall, List.length_map]
    rfl
  rw [h1, h2]
  simp

theorem countTag_identityRows : ∀ (X : List ZipEntry),
    countTag "CLASS\t" (identityRows X) = numClasses X ∧
    countTag "FIELD\t" (identityRows X) = numFields X ∧
    countTag "METHOD\t" (identityRows X) = numMethods X := by
  intro X
  induction X with
  | nil => exact ⟨rfl, rfl, rfl⟩
  | cons e rest ih =>
    have happ : ∀ (tag : String) (a b : List String),
        countTag tag (a ++ b) = countTag tag a + countTag tag b := by
      intro tag a b
      rw [countTag, countTag, countTag]
      apply List.countP_append
    cases hpo : parsedOf e with
    | none =>
      rw [identityRows, hpo]
      rw [show numClasses (e :: rest) = numClasses rest by
        rw [numClasses, numClasses, parsedClasses_cons_none hpo]]
      rw [show numFields (e :: rest) = numFields rest by
        rw [numFields, numFields, parsedClasses_cons_none hpo]]
      rw [show numMethods (e :: rest) = numMethods rest by
        rw [numMethods, numMethods, parsedClasses_cons_none hpo]]
      rw [List.nil_append]
      exact ih
    | some cn =>
      rw [identityRows, hpo]
      rw [happ, happ, happ]
      rw [countTag_idClassRows_class, countTag_idClassRows_field, countTag_idClassRows_method]
      rw [show numClasses (e :: rest) = 1 + numClasses rest by
        rw [numClasses, numClasses, parsedClasses_cons_some hpo, List.length_cons]
        omega]
      rw [show numFields (e :: rest) = nmCount cn.fields + numFields rest by
        rw [numFields, numFields, parsedClasses_cons_some hpo, List.map_cons, List.sum_cons]]
      rw [show numMethods (e :: rest) = eligCount cn.methods + numMethods rest by
        rw [numMethods, numMethods, parsedClasses_cons_some hpo, List.map_cons, List.sum_cons]]
      exact ⟨by rw [ih.1], by rw [ih.2.1], by rw [ih.2.2]⟩

/-! ## Sizes of the minted registries -/

theorem fMints_length (owner : String) :
    ∀ (fs : List FieldNode) (c : Nat), (fMints owner fs c).length = nmCount fs := by
  intro fs
  induction fs with
  | nil => intro c; rfl
  | cons f rest ih =>
    intro c
    rw [fMints]
    by_cases hf : f.name == markerFieldName
    · rw [if_pos hf, ih]
      simp [nmCount, List.filter_cons, hf]
    · rw [if_neg hf, List.length_cons, ih]
      simp [nmCount, List.filter_cons, hf]

theorem mMints_length (owner : String) :
    ∀ (ms : List MethodNode) (c : Nat), (mMints owner ms c).length = eligCount ms := by
  intro ms
  induction ms with
  | nil => intro c; rfl
  | cons m rest ih =>
    intro c
    rw [mMints]
    by_cases hm : skipsTaint m
    · rw [if_pos hm, ih]
      simp [eligCount, List.filter_cons, hm]
    · rw [if_neg hm, List.length_cons, ih]
      simp [eligCount, List.filter_cons, hm]

theorem jarCMints_length : ∀ (X : List ZipEntry) (n : Nat),
    (jarCMints X n).length = numClasses X := by
  intro X
  induction X with
  | nil => intro n; rfl
  | cons e rest ih =>
    intro n
    rw [jarCMints]
    cases hpo : parsedOf e with
    | none =>
      rw [ih n, numClasses, numClasses, parsedClasses_cons_none hpo]
    | some cn =>
      rw [List.length_cons, ih (n + cmc cn), numClasses, numClasses,
        parsedClasses_cons_some hpo, List.length_cons]

theorem jarFMints_length : ∀ (X : List ZipEntry) (n : Nat),
    (jarFMints X n).length = numFields X := by
  intro X
  induction X with
  | nil => intro n; rfl
  | cons e rest ih =>
    intro n
    rw [jarFMints]
    cases hpo : parsedOf e with
    | none =>
      rw [ih n, numFields, numFields, parsedClasses_cons_none hpo]
    | some cn =>
      rw [List.length_append, fMints_length, ih (n + cmc cn), numFields, numFields,
        parsedClasses_cons_some hpo, List.map_cons, List.sum_cons]

theorem jarMMints_length : ∀ (X : List ZipEntry) (n : Nat),
    (jarMMints X n).length = numMethods X := by
  intro X
  induction X with
  | nil => intro n; rfl
  | cons e rest ih =>
    intro n
    rw [jarMMints]
    cases hpo : parsedOf e with
    | none =>
      rw [ih n, numMethods, numMethods, parsedClasses_cons_none hpo]
    | some cn =>
      rw [List.length_append, mMints_length, ih (n + cmc cn), numMethods, numMethods,
        parsedClasses_cons_some hpo, List.map_cons, List.sum_cons]

theorem jarTotal_eq : ∀ (X : List ZipEntry),
    jarTotal X = numClasses X + numFields X + numMethods X := by
  intro X
  induction X with
  | nil => rfl
  | cons e rest ih =>
    cases hpo : parsedOf e with
    | none =>
      rw [jarTotal, hpo]
      rw [show numClasses (e :: rest) = numClasses rest by
        rw [numClasses, numClasses, parsedClasses_cons_none hpo]]
      rw [show numFields (e :: rest) = numFields rest by
        rw [numFields, numFields, parsedClasses_cons_none hpo]]
      rw [show numMethods (e :: rest) = numMethods rest by
        rw [numMethods, numMethods, parsedClasses_cons_none hpo]]
      exact ih
    | some cn =>
      rw [jarTotal, hpo]
      rw [show numClasses (e :: rest) = 1 + numClasses rest by
        rw [numClasses, numClasses, parsedClasses_cons_some hpo, List.length_cons]
        omega]
      rw [show numFields (e :: rest) = nmCount cn.fields + numFields rest by
        rw [numFields, numFields, parsedClasses_cons_some hpo, List.map_cons, List.sum_cons]]
      rw [show numMethods (e :: rest) = eligCount cn.methods + numMethods rest by
        rw [numMethods, numMethods, parsedClasses_cons_some hpo, List.map_cons, List.sum_cons]]
      rw [ih]
      simp only [cmc]
      omega

theorem jar_keys_nodup (X : List ZipEntry) (n : Nat) :
    ((jarCMints X n).map Prod.fst ++ ((jarFMints X n).map Prod.fst
      ++ (jarMMints X n).map Prod.fst)).Nodup := by
  rw [List.nodup_append]
  refine ⟨jarCMints_keys_nodup X n, ?_, ?_⟩
  · rw [List.nodup_append]
    refine ⟨jarFMints_keys_nodup X n, jarMMints_keys_nodup X n, ?_⟩
    intro k hk1 hk2
    obtain ⟨m, _, hm⟩ := jarFMints_keys X n k hk1
    obtain ⟨m', _, hm'⟩ := jarMMints_keys X n k hk2
    exact uuid4_ne_fieldUid m' m (hm' ▸ hm)
  · intro k hk1 hk2
    rw [List.mem_append] at hk2
    rcases hk2 with h | h
    · obtain ⟨m, _, hm⟩ := jarCMints_keys X n k hk1
      obtain ⟨m', _, hm'⟩ := jarFMints_keys X n k h
      exact uuid4_ne_fieldUid m m' (hm ▸ hm')
    · exact jarCM_disjoint X n k hk1 h

/-! ## Claim C1 -/

theorem RegIdx_init : RegIdx ⟨emptyRegistry, 0⟩ :=
  ⟨fun _ hk => absurd hk (List.not_mem_nil _), fun _ hk => absurd hk (List.not_mem_nil _),
   fun _ hk => absurd hk (List.not_mem_nil _)⟩

theorem taint_jar_init (X : List ZipEntry) (hnames : (X.map (fun e => e.filename)).Nodup) :
    taint_jar X ⟨emptyRegistry, 0⟩ =
      (jarOut X 0, ⟨⟨jarCMints X 0, jarMMints X 0, jarFMints X 0⟩, jarTotal X⟩) := by
  rw [taint_jar_eq_S X _ hnames, taintLoopS_eq X _ RegIdx_init]
  simp [emptyRegistry]

/-- C1: for every input archive (with distinct entry names and no
reserved-name / uid-namespace collision), running extraction on the output
of tainting, with no intervening transformation, emits exactly the header
followed by, for every class, a CLASS row whose original and current
columns are both its name; for every non-marker field a FIELD row whose
original and current name columns are both its name; and for every
non-excluded method a METHOD row whose original and current name columns
are both its name — and the numbers of CLASS, FIELD, and METHOD rows equal
K, M, and N (`numClasses`, `numFields`, `numMethods`). -/
theorem extract_after_taint (X : List ZipEntry)
    (hnames : (X.map (fun e => e.filename)).Nodup)
    (hpr : jarPristine X = true) :
    generate_tiny (taint_jar X ⟨emptyRegistry, 0⟩).1 (taint_jar X ⟨emptyRegistry, 0⟩).2.reg
        = "v1\tofficial\tnamed" :: identityRows X ∧
    countTag "CLASS\t"
      (generate_tiny (taint_jar X ⟨emptyRegistry, 0⟩).1 (taint_jar X ⟨emptyRegistry, 0⟩).2.reg)
        = numClasses X ∧
    countTag "FIELD\t"
      (generate_tiny (taint_jar X ⟨emptyRegistry, 0⟩).1 (taint_jar X ⟨emptyRegistry, 0⟩).2.reg)
        = numFields X ∧
    countTag "METHOD\t"
      (generate_tiny (taint_jar X ⟨emptyRegistry, 0⟩).1 (taint_jar X ⟨emptyRegistry, 0⟩).2.reg)
        = numMethods X := by
  rw [taint_jar_init X hnames]
  dsimp only
  have hout : generate_tiny (jarOut X 0)
      (⟨jarCMints X 0, jarMMints X 0, jarFMints X 0⟩ : Registry)
      = "v1\tofficial\tnamed" :: identityRows X := by
    rw [generate_tiny_eq_S _ _ (by rw [jarOut_names]; exact hnames)]
    congr 1
    exact tinyRows_jarOut _ (jarCMints_keys_nodup X 0) (jarFMints_keys_nodup X 0)
      (jarMMints_keys_nodup X 0)
      (fun k hk => (jarMMints_keys X 0 k hk).elim (fun m hm => ⟨m, hm.2⟩))
      X 0 (fun _ hp => hp) (fun _ hp => hp) (fun _ hp => hp) hpr
  rw [hout]
  have hdr : ∀ tag : String, strStartsWith "v1\tofficial\tnamed" tag = false →
      countTag tag ("v1\tofficial\tnamed" :: identityRows X) = countTag tag (identityRows X) := by
    intro tag h
    rw [countTag, countTag, List.countP_cons, h]
    simp
  refine ⟨rfl, ?_, ?_, ?_⟩
  · rw [hdr "CLASS\t" (by decide)]
    exact (countTag_identityRows X).1
  · rw [hdr "FIELD\t" (by decide)]
    exact (countTag_identityRows X).2.1
  · rw [hdr "METHOD\t" (by decide)]
    exact (countTag_identityRows X).2.2

/-- Witness for C1: the spec's concrete scenario (class `a` with a static
field `x:I`, an instance field `y:Ljava/lang/String;`, and a method
`go:()V`) satisfies the hypotheses, and taint-then-extract emits exactly
the expected five lines with equal original and current columns. -/
theorem extract_after_taint_witness :
    ((exJarA.map (fun e => e.filename)).Nodup ∧ jarPristine exJarA = true) ∧
    (generate_tiny (taint_jar exJarA ⟨emptyRegistry, 0⟩).1
        (taint_jar exJarA ⟨emptyRegistry, 0⟩).2.reg
      = "v1\tofficial\tnamed" :: identityRows exJarA ∧
    countTag "CLASS\t"
      (generate_tiny (taint_jar exJarA ⟨emptyRegistry, 0⟩).1
        (taint_jar exJarA ⟨emptyRegistry, 0⟩).2.reg) = numClasses exJarA ∧
    countTag "FIELD\t"
      (generate_tiny (taint_jar exJarA ⟨emptyRegistry, 0⟩).1
        (taint_jar exJarA ⟨emptyRegistry, 0⟩).2.reg) = numFields exJarA ∧
    countTag "METHOD\t"
      (generate_tiny (taint_jar exJarA ⟨emptyRegistry, 0⟩).1
        (taint_jar exJarA ⟨emptyRegistry, 0⟩).2.reg) = numMethods exJarA) ∧
    generate_tiny (taint_jar exJarA ⟨emptyRegistry, 0⟩).1
        (taint_jar exJarA ⟨emptyRegistry, 0⟩).2.reg
      = ["v1\tofficial\tnamed", "CLASS\ta\ta", "FIELD\ta\tI\tx\tx",
         "FIELD\ta\tLjava/lang/String;\ty\ty", "METHOD\ta\t()V\tgo\tgo"] :=
  ⟨⟨by decide, by decide⟩,
   extract_after_taint exJarA (by decide) (by decide),
   by decide⟩

/-! ## Claim C2 -/

/-- C2: for an input whose classes all parse, with K classes, M non-marker
fields and N concrete non-excluded methods, a tainting pass starting from
the empty registry mints exactly K+M+N uids (`ctr` counts the calls to the
uid source), and afterwards the registry holds exactly K class entries,
M field entries and N method entries, no two entries (across all three
maps) sharing a uid. -/
theorem taint_registry_counts (X : List ZipEntry)
    (hnames : (X.map (fun e => e.filename)).Nodup)
    (_hparse : ∀ e ∈ X, strEndsWith e.filename ".class" = true →
      ∃ cn, e.content = EntryContent.classData cn) :
    (taint_jar X ⟨emptyRegistry, 0⟩).2.ctr = numClasses X + numFields X + numMethods X ∧
    (taint_jar X ⟨emptyRegistry, 0⟩).2.reg.classes.length = numClasses X ∧
    (taint_jar X ⟨emptyRegistry, 0⟩).2.reg.fields.length = numFields X ∧
    (taint_jar X ⟨emptyRegistry, 0⟩).2.reg.methods.length = numMethods X ∧
    ((taint_jar X ⟨emptyRegistry, 0⟩).2.reg.classes.map Prod.fst
      ++ ((taint_jar X ⟨emptyRegistry, 0⟩).2.reg.fields.map Prod.fst
        ++ (taint_jar X ⟨emptyRegistry, 0⟩).2.reg.methods.map Prod.fst)).Nodup := by
  rw [taint_jar_init X hnames]
  dsimp only
  exact ⟨jarTotal_eq X, jarCMints_length X 0, jarFMints_length X 0, jarMMints_length X 0,
    jar_keys_nodup X 0⟩

/-- Witness for C2: the spec scenario archive has K = 1, M = 2, N = 1;
tainting it mints 4 distinct uids and fills the registry accordingly. -/
theorem taint_registry_counts_witness :
    ((exJarA.map (fun e => e.filename)).Nodup ∧
      numClasses exJarA = 1 ∧ numFields exJarA = 2 ∧ numMethods exJarA = 1) ∧
    ((taint_jar exJarA ⟨emptyRegistry, 0⟩).2.ctr
        = numClasses exJarA + numFields exJarA + numMethods exJarA ∧
      (taint_jar exJarA ⟨emptyRegistry, 0⟩).2.reg.classes.length = numClasses exJarA ∧
      (taint_jar exJarA ⟨emptyRegistry, 0⟩).2.reg.fields.length = numFields exJarA ∧
      (taint_jar exJarA ⟨emptyRegistry, 0⟩).2.reg.methods.length = numMethods exJarA ∧
      ((taint_jar exJarA ⟨emptyRegistry, 0⟩).2.reg.classes.map Prod.fst
        ++ ((taint_jar exJarA ⟨emptyRegistry, 0⟩).2.reg.fields.map Prod.fst
          ++ (taint_jar exJarA ⟨emptyRegistry, 0⟩).2.reg.methods.map Prod.fst)).Nodup) :=
  ⟨⟨by decide, by decide, by decide, by decide⟩,
   taint_registry_counts exJarA (by decide)
     (by
       intro e he hcls
       simp only [exJarA, List.mem_singleton] at he
       subst he
       exact ⟨exClassA, rfl⟩)⟩

/-! ## Claim C5 -/

theorem taintClass_mono (cn : ClassNode) (st : TaintState) (h : RegIdx st) :
    st.reg.classes <+: (taintClass cn st).2.reg.classes ∧
    st.reg.methods <+: (taintClass cn st).2.reg.methods ∧
    st.reg.fields <+: (taintClass cn st).2.reg.fields := by
  rw [taintClass_eq cn st h]
  exact ⟨ List.prefix_append _ _, List.prefix_append _ _, List.prefix_append _ _⟩

theorem taintEntry_snd (z : List ZipEntry) (item : ZipEntry) (st : TaintState) :
    (taintEntry z item st).2 = st ∨
      ∃ cn, (taintEntry z item st).2 = (taintClass cn st).2 := by
  rw [taintEntry]
  by_cases hcls : strEndsWith item.filename ".class"
  · rw [if_pos hcls]
    cases hp : parseClass (readName z item.filename) with
    | none =>
      left
      rfl
    | some cn =>
      right
      refine ⟨cn, ?_⟩
      rcases htc : taintClass cn st with ⟨cn2, st2⟩
      dsimp only
      rw [htc]
  · rw [if_neg hcls]
    left
    rfl

theorem taintEntry_mono (z : List ZipEntry) (item : ZipEntry) (st : TaintState)
    (h : RegIdx st) :
    (st.reg.classes <+: (taintEntry z item st).2.reg.classes ∧
      st.reg.methods <+: (taintEntry z item st).2.reg.methods ∧
      st.reg.fields <+: (taintEntry z item st).2.reg.fields) ∧
    RegIdx (taintEntry z item st).2 := by
  rcases taintEntry_snd z item st with he | ⟨cn, he⟩
  · rw [he]
    exact ⟨⟨ List.prefix_refl _, List.prefix_refl _, List.prefix_refl _⟩, h⟩
  · rw [he]
    exact ⟨taintClass_mono cn st h, RegIdx_taintClass h⟩

theorem taintLoop_mono (z : List ZipEntry) :
    ∀ (l : List ZipEntry) (st : TaintState), RegIdx st →
      (st.reg.classes <+: (taintLoop z l st).2.reg.classes ∧
        st.reg.methods <+: (taintLoop z l st).2.reg.methods ∧
        st.reg.fields <+: (taintLoop z l st).2.reg.fields) ∧
      RegIdx (taintLoop z l st).2 := by
  intro l
  induction l with
  | nil =>
    intro st h
    exact ⟨⟨ List.prefix_refl _, List.prefix_refl _, List.prefix_refl _⟩, h⟩
  | cons item rest ih =>
    intro st h
    rw [taintLoop]
    rcases hte : taintEntry z item st with ⟨e1, st1⟩
    have hstep := taintEntry_mono z item st h
    rw [hte] at hstep
    dsimp only at hstep ⊢
    rcases hloop : taintLoop z rest st1 with ⟨out, st2⟩
    have hrest := ih st1 hstep.2
    rw [hloop] at hrest
    dsimp only at hrest ⊢
    exact ⟨⟨hstep.1.1.trans hrest.1.1, hstep.1.2.1.trans hrest.1.2.1,
      hstep.1.2.2.trans hrest.1.2.2⟩, hrest.2⟩

/-- C5 (amended): the Registry is created empty once per process (at module
initialization), not at the start of every tainting pass.  Within any pass
it only gains entries — the entry lists before the pass are prefixes of
those after, so nothing is removed or overwritten — and extraction only
reads it (`generate_tiny` takes the registry as a read-only argument).
Consequently consecutive tainting passes accumulate: tainting the one-class
archive `exJarGo` twice in one process leaves two class entries, because
the second pass starts from the registry the first pass left behind. -/
theorem registry_monotone :
    (∀ (X : List ZipEntry) (st : TaintState), RegIdx st →
      (st.reg.classes <+: (taint_jar X st).2.reg.classes ∧
        st.reg.methods <+: (taint_jar X st).2.reg.methods ∧
        st.reg.fields <+: (taint_jar X st).2.reg.fields) ∧
      RegIdx (taint_jar X st).2) ∧
    (taint_jar exJarGo (taint_jar exJarGo ⟨emptyRegistry, 0⟩).2).2.reg.classes.length = 2 :=
  ⟨fun X st h => taintLoop_mono X X st h, by decide⟩

/-- Witness for C5's amended statement: instantiated on `exJarGo` from the
initial state, whose hypothesis `RegIdx` holds vacuously. -/
theorem registry_monotone_witness :
    RegIdx ⟨emptyRegistry, 0⟩ ∧
    (((⟨emptyRegistry, 0⟩ : TaintState).reg.classes
        <+: (taint_jar exJarGo ⟨emptyRegistry, 0⟩).2.reg.classes ∧
      (⟨emptyRegistry, 0⟩ : TaintState).reg.methods
        <+: (taint_jar exJarGo ⟨emptyRegistry, 0⟩).2.reg.methods ∧
      (⟨emptyRegistry, 0⟩ : TaintState).reg.fields
        <+: (taint_jar exJarGo ⟨emptyRegistry, 0⟩).2.reg.fields) ∧
     RegIdx (taint_jar exJarGo ⟨emptyRegistry, 0⟩).2) :=
  ⟨⟨fun _ hk => absurd hk (List.not_mem_nil _), fun _ hk => absurd hk (List.not_mem_nil _),
    fun _ hk => absurd hk (List.not_mem_nil _)⟩,
   registry_monotone.1 exJarGo ⟨emptyRegistry, 0⟩
     ⟨fun _ hk => absurd hk (List.not_mem_nil _), fun _ hk => absurd hk (List.not_mem_nil _),
      fun _ hk => absurd hk (List.not_mem_nil _)⟩⟩

/-- C5 counterexample: the claim as stated is false — a tainting pass does
not start from an empty Registry.  After one pass on the one-class archive
`exJarGo` the global registry (the state handed to the next pass) is not
empty, and a second consecutive pass ends with 2 class entries where a
freshly emptied registry would hold 1. -/
theorem registry_not_reset :
    (taint_jar exJarGo ⟨emptyRegistry, 0⟩).2.reg ≠ emptyRegistry ∧
    (taint_jar exJarGo (taint_jar exJarGo ⟨emptyRegistry, 0⟩).2).2.reg.classes.length = 2 ∧
    numClasses exJarGo = 1 :=
  ⟨by decide, by decide, by decide⟩

/-! ## Claim C3 -/

theorem firstLdc_no_ldc_append :
    ∀ (pre : List Insn), pre.all (fun i => !(isLdcInsn i)) = true →
      ∀ (c : String) (post : List Insn),
        firstLdc (pre ++ Insn.ldcInsnNode c :: post) = some c := by
  intro pre
  induction pre with
  | nil => intro _ c post; rfl
  | cons i rest ih =>
    intro h c post
    rw [List.all_cons, Bool.and_eq_true] at h
    cases i with
    | ldcInsnNode s =>
      exact absurd h.1 (by simp [isLdcInsn])
    | insnNode o => exact ih h.2 c post
    | fieldInsnNode o ow na de => exact ih h.2 c post
    | typeInsnNode o de => exact ih h.2 c post
    | methodInsnNode o ow na de it => exact ih h.2 c post

/-- C3 counterexample: the claim as stated is false.  After tainting
`exJarGo`, the registry knows `"uuid-x"` as the method uid of `go`; a
mapper inserts a foreign constant-load `"hello"` in front of `go`'s
carrier body (`exMappedGo`).  The method's instruction list still contains
a constant-load whose value is the registered uid, yet extraction emits no
METHOD row at all: the scan of the method stopped at the first,
unregistered constant-load. -/
theorem method_scan_counterexample :
    dictGet "uuid-x" exRegGo.methods ≠ none ∧
    Insn.ldcInsnNode "uuid-x" ∈ (Insn.ldcInsnNode "hello" :: carrierBody "uuid-x") ∧
    dictGet "hello" exRegGo.methods = none ∧
    generate_tiny exMappedGo exRegGo = ["v1\tofficial\tnamed", "CLASS\ta\ta"] ∧
    countTag "METHOD\t" (generate_tiny exMappedGo exRegGo) = 0 :=
  ⟨by decide, by decide, by decide, by decide, by decide⟩

/-- C3 (amended): the METHOD-row scan selects the first constant-load
instruction of a method unconditionally — whatever instructions follow it.
A METHOD row (naming the enclosing method as current name) is emitted
exactly when that first constant-load's value is a uid present in the
registry's method mapping; a constant-load whose value is not a registered
method uid stops the scan of that method without emitting a row. -/
theorem method_scan_first_ldc (reg : Registry) (ocn : String) (m : MethodNode)
    (pre post : List Insn) (c : String)
    (hm : m.instructions = pre ++ Insn.ldcInsnNode c :: post)
    (hpre : pre.all (fun i => !(isLdcInsn i)) = true) :
    (dictGet c reg.methods = none → methodRowsOf reg ocn m = []) ∧
    (∀ d, dictGet c reg.methods = some d →
      methodRowsOf reg ocn m =
        ["METHOD\t" ++ ocn ++ "\t" ++ d.desc ++ "\t" ++ d.name ++ "\t" ++ m.name]) := by
  constructor
  · intro hnone
    rw [methodRowsOf, hm, firstLdc_no_ldc_append pre hpre c post]
    dsimp only
    rw [hnone]
  · intro d hsome
    rw [methodRowsOf, hm, firstLdc_no_ldc_append pre hpre c post]
    dsimp only
    rw [hsome]

/-- Witness for C3's amended statement: a method whose body is a non-load
instruction followed by the constant `"k"` and then a registered-uid
constant; the scan keys on `"k"` alone. -/
theorem method_scan_first_ldc_witness :
    ((⟨0, "mm", "()V", [Insn.insnNode 0, Insn.ldcInsnNode "k", Insn.ldcInsnNode "uuid-"],
        0, 0⟩ : MethodNode).instructions
      = [Insn.insnNode 0] ++ Insn.ldcInsnNode "k" :: [Insn.ldcInsnNode "uuid-"] ∧
     ([Insn.insnNode 0].all (fun i => !(isLdcInsn i))) = true ∧
     dictGet "k" (⟨[], [("uuid-", ⟨"o", "n", "()V"⟩)], []⟩ : Registry).methods = none) ∧
    (dictGet "k" (⟨[], [("uuid-", ⟨"o", "n", "()V"⟩)], []⟩ : Registry).methods = none →
      methodRowsOf ⟨[], [("uuid-", ⟨"o", "n", "()V"⟩)], []⟩ "oc"
        ⟨0, "mm", "()V", [Insn.insnNode 0, Insn.ldcInsnNode "k", Insn.ldcInsnNode "uuid-"],
          0, 0⟩ = []) :=
  ⟨⟨by decide, by decide, by decide⟩,
   (method_scan_first_ldc ⟨[], [("uuid-", ⟨"o", "n", "()V"⟩)], []⟩ "oc"
     ⟨0, "mm", "()V", [Insn.insnNode 0, Insn.ldcInsnNode "k", Insn.ldcInsnNode "uuid-"], 0, 0⟩
     [Insn.insnNode 0] [Insn.ldcInsnNode "uuid-"] "k" (by decide) (by decide)).1⟩

/-! ## Claim C4 -/

theorem strAppend_assoc (a b c : String) : a ++ b ++ c = a ++ (b ++ c) := by
  apply String.ext
  rw [String.data_append, String.data_append, String.data_append, String.data_append]
  exact List.append_assoc _ _ _

theorem fieldRowsOf_shape (reg : Registry) (ocn : String) (m : MethodNode) :
    ∀ r ∈ fieldRowsOf reg ocn m, ∃ s, r = "FIELD\t" ++ ocn ++ "\t" ++ s := by
  intro r hr
  rw [fieldRowsOf] at hr
  by_cases hc : strContains m.name traceTag
  · rw [if_pos hc] at hr
    dsimp only at hr
    rcases h1 : firstFieldInsnName m.instructions with _ | mapped
    · rw [h1] at hr
      exact absurd hr (List.not_mem_nil _)
    · rw [h1] at hr
      rcases h2 : dictGet (String.mk ((pySplit traceTag.data m.name.data).getD 1 []))
          reg.fields with _ | d
      · rw [h2] at hr
        exact absurd hr (List.not_mem_nil _)
      · rw [h2] at hr
        rw [List.mem_singleton] at hr
        subst hr
        exact ⟨d.desc ++ "\t" ++ d.name ++ "\t" ++ mapped, by simp [strAppend_assoc]⟩
  · rw [if_neg hc] at hr
    exact absurd hr (List.not_mem_nil _)

theorem methodRowsOf_shape (reg : Registry) (ocn : String) (m : MethodNode) :
    ∀ r ∈ methodRowsOf reg ocn m, ∃ s, r = "METHOD\t" ++ ocn ++ "\t" ++ s := by
  intro r hr
  rw [methodRowsOf] at hr
  rcases h1 : firstLdc m.instructions with _ | c
  · rw [h1] at hr
    exact absurd hr (List.not_mem_nil _)
  · rw [h1] at hr
    dsimp only at hr
    rcases h2 : dictGet c reg.methods with _ | d
    · rw [h2] at hr
      exact absurd hr (List.not_mem_nil _)
    · rw [h2] at hr
      rw [List.mem_singleton] at hr
      subst hr
      exact ⟨d.desc ++ "\t" ++ d.name ++ "\t" ++ m.name, by simp [strAppend_assoc]⟩

/-- C4 counterexample: the claim as stated is false.  Tainting `exJarAB`
records field uid `"uuidx"` with owner original name `"a"`.  The mapper
relocates the probe method into class `b` (`exMappedAB`); extraction then
emits the FIELD row with owner column `"b"` — the original name of the
class in which the probe was found — not the registry-recorded owner
`"a"`. -/
theorem row_owner_counterexample :
    generate_tiny exMappedAB exRegAB
      = ["v1\tofficial\tnamed", "CLASS\tb\tb", "FIELD\tb\tI\tx\tx"] ∧
    (dictGet "uuidx" exRegAB.fields).map (fun d => d.owner) = some "a" ∧
    ("b" : String) ≠ "a" :=
  ⟨by decide, by decide, by decide⟩

/-- C4 (amended): the owner column of every FIELD and every METHOD row is
the *resolved original name of the class in which the probe or constant was
found* (the name the class's own marker uid maps to) — which coincides with
the registry-recorded owner of the member's uid exactly when the
intervening transformation did not relocate members across classes. -/
theorem row_owner_is_enclosing_class (reg : Registry) (cn : ClassNode) (d : ClassData)
    (htr : uidTruthy (classUidOf cn) = true)
    (hget : dictGet ((classUidOf cn).getD "") reg.classes = some d) :
    ∀ r ∈ tinyClassRows reg cn,
      r = "CLASS\t" ++ d.name ++ "\t" ++ cn.name ∨
      (∃ s, r = "FIELD\t" ++ d.name ++ "\t" ++ s) ∨
      (∃ s, r = "METHOD\t" ++ d.name ++ "\t" ++ s) := by
  intro r hr
  rw [tinyClassRows] at hr
  rw [htr, if_pos rfl, hget] at hr
  dsimp only at hr
  rcases List.mem_cons.mp hr with h | h
  · exact Or.inl h
  · rcases List.mem_append.mp h with h | h
    · obtain ⟨m, _, hm⟩ := List.mem_flatMap.mp h
      exact Or.inr (Or.inl (fieldRowsOf_shape reg d.name m r hm))
    · obtain ⟨m, _, hm⟩ := List.mem_flatMap.mp h
      exact Or.inr (Or.inr (methodRowsOf_shape reg d.name m r hm))

/-- Witness for C4's amended statement: on the relocated-probe artifact,
the emitted FIELD row carries owner column `"b"`, the resolved original
name of the enclosing class. -/
theorem row_owner_witness :
    (uidTruthy (classUidOf exClassBMoved) = true ∧
     dictGet ((classUidOf exClassBMoved).getD "") exRegAB.classes = some ⟨"b"⟩ ∧
     "FIELD\tb\tI\tx\tx" ∈ tinyClassRows exRegAB exClassBMoved) ∧
    ("FIELD\tb\tI\tx\tx" = "CLASS\t" ++ ("b" : String) ++ "\t" ++ exClassBMoved.name ∨
     (∃ s, "FIELD\tb\tI\tx\tx" = "FIELD\t" ++ ("b" : String) ++ "\t" ++ s) ∨
     (∃ s, "FIELD\tb\tI\tx\tx" = "METHOD\t" ++ ("b" : String) ++ "\t" ++ s)) :=
  ⟨⟨by decide, by decide, by decide⟩,
   row_owner_is_enclosing_class exRegAB exClassBMoved ⟨"b"⟩ (by decide) (by decide)
     "FIELD\tb\tI\tx\tx" (by decide)⟩

/-! ## Claim C6 -/

/-- C6: every method the tainting pass rewrites gets, as its entire body,
exactly the carrier sequence — instantiate the error carrier (`NEW`/`DUP`),
push the uid string as a constant, invoke the carrier's single-string
constructor, and raise it — with the previous instructions discarded and
the try-catch-block and local-variable tables left empty. -/
theorem tainted_method_body (owner : String) :
    ∀ (ms : List MethodNode) (st : TaintState) (i : Nat) (hi : i < ms.length),
      skipsTaint (ms.get ⟨i, hi⟩) = false →
      ∃ m_uid, (taintMethods owner ms st).1.get? i =
        some { ms.get ⟨i, hi⟩ with
          instructions := carrierBody m_uid, tryCatchBlocks := 0, localVariables := 0 } := by
  intro ms
  induction ms with
  | nil =>
    intro st i hi
    exact absurd hi (Nat.not_lt_zero i)
  | cons m rest ih =>
    intro st i hi helig
    rw [taintMethods]
    by_cases hm : skipsTaint m
    · rw [if_pos hm]
      rcases hrec : taintMethods owner rest st with ⟨ms', st'⟩
      dsimp only
      cases i with
      | zero => exact absurd helig (by rw [show (m :: rest).get ⟨0, hi⟩ = m from rfl, hm]; simp)
      | succ j =>
        obtain ⟨u, hu⟩ := ih st j (Nat.lt_of_succ_lt_succ hi) helig
        rw [hrec] at hu
        exact ⟨u, hu⟩
    · rw [if_neg hm]
      rcases hrec : taintMethods owner rest
          ⟨⟨st.reg.classes, dictInsert (uuid4 st.ctr) ⟨owner, m.name, m.desc⟩ st.reg.methods,
            st.reg.fields⟩, st.ctr + 1⟩ with ⟨ms', st'⟩
      dsimp only
      rw [hrec]
      dsimp only
      cases i with
      | zero => exact ⟨uuid4 st.ctr, rfl⟩
      | succ j =>
        obtain ⟨u, hu⟩ := ih ⟨⟨st.reg.classes,
          dictInsert (uuid4 st.ctr) ⟨owner, m.name, m.desc⟩ st.reg.methods,
          st.reg.fields⟩, st.ctr + 1⟩ j (Nat.lt_of_succ_lt_succ hi) helig
        rw [hrec] at hu
        exact ⟨u, hu⟩

/-- Witness for C6: tainting a one-method class rewrites `go`'s body to the
carrier sequence. -/
theorem tainted_method_body_witness :
    (0 < ([(⟨ACC_PUBLIC, "go", "()V", [Insn.insnNode RETURN], 0, 0⟩ : MethodNode)]).length ∧
     skipsTaint (([(⟨ACC_PUBLIC, "go", "()V", [Insn.insnNode RETURN], 0, 0⟩ : MethodNode)]).get
       ⟨0, by decide⟩) = false) ∧
    ∃ m_uid, (taintMethods "a" [⟨ACC_PUBLIC, "go", "()V", [Insn.insnNode RETURN], 0, 0⟩]
        ⟨emptyRegistry, 0⟩).1.get? 0 =
      some { ([(⟨ACC_PUBLIC, "go", "()V", [Insn.insnNode RETURN], 0, 0⟩ : MethodNode)]).get
          ⟨0, by decide⟩ with
        instructions := carrierBody m_uid, tryCatchBlocks := 0, localVariables := 0 } :=
  ⟨⟨by decide, by decide⟩,
   tainted_method_body "a" [⟨ACC_PUBLIC, "go", "()V", [Insn.insnNode RETURN], 0, 0⟩]
     ⟨emptyRegistry, 0⟩ 0 (by decide) (by decide)⟩

/-! ## Claim C7 -/

theorem taintLoopS_cons_skip {e : ZipEntry} (hpo : parsedOf e = none)
    (l : List ZipEntry) (st : TaintState) :
    taintLoopS (e :: l) st = (e :: (taintLoopS l st).1, (taintLoopS l st).2) := by
  rw [taintLoopS, taintEntryS_skip hpo]

theorem taintLoopS_append : ∀ (a b : List ZipEntry) (st : TaintState),
    taintLoopS (a ++ b) st =
      ((taintLoopS a st).1 ++ (taintLoopS b (taintLoopS a st).2).1,
       (taintLoopS b (taintLoopS a st).2).2) := by
  intro a
  induction a with
  | nil => intro b st; rfl
  | cons e rest ih =>
    intro b st
    rw [List.cons_append, taintLoopS, taintLoopS]
    rcases hte : taintEntryS e st with ⟨e1, st1⟩
    dsimp only
    rw [ih b st1]
    rcases h2 : taintLoopS rest st1 with ⟨out2, st2⟩
    dsimp only
    rcases h3 : taintLoopS b st2 with ⟨out3, st3⟩
    rfl

/-- C7: an entry whose name denotes a class but whose bytes fail to parse
is written to the output byte-identical (same name, same position), no uid
is minted for it (the state reaching the following entries is exactly the
state after the preceding ones), and processing of the remaining entries
continues; extraction likewise skips such an entry and continues. -/
theorem parse_failure_passthrough (pre post : List ZipEntry) (name : String) (bs : List Nat)
    (st : TaintState) (reg : Registry)
    (hcls : strEndsWith name ".class" = true)
    (hnames : ((pre ++ ⟨name, EntryContent.raw bs⟩ :: post).map (fun e => e.filename)).Nodup) :
    taint_jar (pre ++ ⟨name, EntryContent.raw bs⟩ :: post) st =
      ((taintLoopS pre st).1 ++ ⟨name, EntryContent.raw bs⟩ ::
          (taintLoopS post (taintLoopS pre st).2).1,
        (taintLoopS post (taintLoopS pre st).2).2) ∧
    generate_tiny (pre ++ ⟨name, EntryContent.raw bs⟩ :: post) reg =
      "v1\tofficial\tnamed" :: (pre.flatMap (tinyEntryRowsS reg)
        ++ post.flatMap (tinyEntryRowsS reg)) := by
  have hpo : parsedOf (⟨name, EntryContent.raw bs⟩ : ZipEntry) = none :=
    parsedOf_none_of_raw hcls rfl
  constructor
  · rw [taint_jar_eq_S _ _ hnames, taintLoopS_append, taintLoopS_cons_skip hpo]
  · rw [generate_tiny_eq_S _ _ hnames, List.flatMap_append, List.flatMap_cons,
      tinyEntryRowsS_skip reg _ hpo, List.nil_append]

/-- Witness for C7: a one-entry archive holding unparsable class bytes is
passed through unchanged with the state untouched, and extraction emits
only the header. -/
theorem parse_failure_passthrough_witness :
    (strEndsWith "x.class" ".class" = true ∧
     ((([] : List ZipEntry) ++ ⟨"x.class", EntryContent.raw [0]⟩ :: ([] : List ZipEntry)).map
        (fun e => e.filename)).Nodup) ∧
    (taint_jar (([] : List ZipEntry) ++ ⟨"x.class", EntryContent.raw [0]⟩ :: ([] : List ZipEntry))
        ⟨emptyRegistry, 0⟩ =
      ((taintLoopS [] ⟨emptyRegistry, 0⟩).1 ++ ⟨"x.class", EntryContent.raw [0]⟩ ::
          (taintLoopS [] (taintLoopS [] ⟨emptyRegistry, 0⟩).2).1,
        (taintLoopS [] (taintLoopS [] ⟨emptyRegistry, 0⟩).2).2) ∧
    generate_tiny (([] : List ZipEntry) ++ ⟨"x.class", EntryContent.raw [0]⟩ ::
        ([] : List ZipEntry)) emptyRegistry =
      "v1\tofficial\tnamed" :: (([] : List ZipEntry).flatMap (tinyEntryRowsS emptyRegistry)
        ++ ([] : List ZipEntry).flatMap (tinyEntryRowsS emptyRegistry))) :=
  ⟨⟨by decide, by decide⟩,
   parse_failure_passthrough [] [] "x.class" [0] ⟨emptyRegistry, 0⟩ emptyRegistry
     (by decide) (by decide)⟩

/-! ## Claim C8 -/

theorem taintMethods_get_skip (owner : String) :
    ∀ (ms : List MethodNode) (st : TaintState) (i : Nat) (hi : i < ms.length),
      skipsTaint (ms.get ⟨i, hi⟩) = true →
      (taintMethods owner ms st).1.get? i = some (ms.get ⟨i, hi⟩) := by
  intro ms
  induction ms with
  | nil =>
    intro st i hi
    exact absurd hi (Nat.not_lt_zero i)
  | cons m rest ih =>
    intro st i hi hskip
    rw [taintMethods]
    by_cases hm : skipsTaint m
    · rw [if_pos hm]
      rcases hrec : taintMethods owner rest st with ⟨ms', st'⟩
      dsimp only
      cases i with
      | zero => rfl
      | succ j =>
        have hu := ih st j (Nat.lt_of_succ_lt_succ hi) hskip
        rw [hrec] at hu
        exact hu
    · rw [if_neg hm]
      rcases hrec : taintMethods owner rest
          ⟨⟨st.reg.classes, dictInsert (uuid4 st.ctr) ⟨owner, m.name, m.desc⟩ st.reg.methods,
            st.reg.fields⟩, st.ctr + 1⟩ with ⟨ms', st'⟩
      dsimp only
      rw [hrec]
      dsimp only
      cases i with
      | zero => exact absurd hskip (by rw [show (m :: rest).get ⟨0, hi⟩ = m from rfl]; simp [hm])
      | succ j =>
        have hu := ih ⟨⟨st.reg.classes,
          dictInsert (uuid4 st.ctr) ⟨owner, m.name, m.desc⟩ st.reg.methods,
          st.reg.fields⟩, st.ctr + 1⟩ j (Nat.lt_of_succ_lt_succ hi) hskip
        rw [hrec] at hu
        exact hu

theorem taintMethods_ctr (owner : String) :
    ∀ (ms : List MethodNode) (st : TaintState),
      (taintMethods owner ms st).2.ctr = st.ctr + eligCount ms := by
  intro ms
  induction ms with
  | nil => intro st; rfl
  | cons m rest ih =>
    intro st
    rw [taintMethods]
    by_cases hm : skipsTaint m
    · rw [if_pos hm]
      rcases hrec : taintMethods owner rest st with ⟨ms', st'⟩
      dsimp only
      have hu := ih st
      rw [hrec] at hu
      dsimp only at hu
      have hc : eligCount (m :: rest) = eligCount rest := by
        simp [eligCount, List.filter_cons, hm]
      rw [hc]
      exact hu
    · rw [if_neg hm]
      rcases hrec : taintMethods owner rest
          ⟨⟨st.reg.classes, dictInsert (uuid4 st.ctr) ⟨owner, m.name, m.desc⟩ st.reg.methods,
            st.reg.fields⟩, st.ctr + 1⟩ with ⟨ms', st'⟩
      dsimp only
      rw [hrec]
      dsimp only
      have hu := ih ⟨⟨st.reg.classes,
        dictInsert (uuid4 st.ctr) ⟨owner, m.name, m.desc⟩ st.reg.methods,
        st.reg.fields⟩, st.ctr + 1⟩
      rw [hrec] at hu
      dsimp only at hu
      have hc : eligCount (m :: rest) = eligCount rest + 1 := by
        simp [eligCount, List.filter_cons, hm]
      rw [hc, hu]
      omega

/-- C8: the method-tainting loop leaves every skipped method — constructors
and class initialisers (name starting `<`), reserved `$$mcp`-prefixed
methods, abstract methods, and native methods — entirely untouched at its
position, and mints exactly one uid per non-skipped method (so skipped
methods mint none); concretely, tainting then extracting a class whose only
methods are abstract or native yields just the header and its CLASS row. -/
theorem skip_rules (owner : String) (ms : List MethodNode) (st : TaintState) (i : Nat)
    (hi : i < ms.length) (hskip : skipsTaint (ms.get ⟨i, hi⟩) = true) :
    ((taintMethods owner ms st).1.get? i = some (ms.get ⟨i, hi⟩) ∧
     (taintMethods owner ms st).2.ctr = st.ctr + eligCount ms) ∧
    (generate_tiny (taint_jar exJarSkip ⟨emptyRegistry, 0⟩).1
        (taint_jar exJarSkip ⟨emptyRegistry, 0⟩).2.reg
      = ["v1\tofficial\tnamed", "CLASS\tb\tb"] ∧
     countTag "FIELD\t" (generate_tiny (taint_jar exJarSkip ⟨emptyRegistry, 0⟩).1
        (taint_jar exJarSkip ⟨emptyRegistry, 0⟩).2.reg) = 0 ∧
     countTag "METHOD\t" (generate_tiny (taint_jar exJarSkip ⟨emptyRegistry, 0⟩).1
        (taint_jar exJarSkip ⟨emptyRegistry, 0⟩).2.reg) = 0) :=
  ⟨⟨taintMethods_get_skip owner ms st i hi hskip, taintMethods_ctr owner ms st⟩,
   by decide, by decide, by decide⟩

/-- Witness for C8: an abstract method at index 0 is passed through
untouched, and the all-abstract/native class `b` extracts to header plus
its CLASS row only. -/
theorem skip_rules_witness :
    (0 < ([(⟨ACC_ABSTRACT, "am", "()V", [], 0, 0⟩ : MethodNode)]).length ∧
     skipsTaint (([(⟨ACC_ABSTRACT, "am", "()V", [], 0, 0⟩ : MethodNode)]).get
       ⟨0, by decide⟩) = true) ∧
    ((taintMethods "b" [⟨ACC_ABSTRACT, "am", "()V", [], 0, 0⟩] ⟨emptyRegistry, 0⟩).1.get? 0 =
        some (([(⟨ACC_ABSTRACT, "am", "()V", [], 0, 0⟩ : MethodNode)]).get ⟨0, by decide⟩) ∧
     (taintMethods "b" [⟨ACC_ABSTRACT, "am", "()V", [], 0, 0⟩] ⟨emptyRegistry, 0⟩).2.ctr =
        (⟨emptyRegistry, 0⟩ : TaintState).ctr +
          eligCount [⟨ACC_ABSTRACT, "am", "()V", [], 0, 0⟩]) :=
  ⟨⟨by decide, by decide⟩,
   ((skip_rules "b" [⟨ACC_ABSTRACT, "am", "()V", [], 0, 0⟩] ⟨emptyRegistry, 0⟩ 0
      (by decide) (by decide)).1)⟩

/-! ## Claim C9 -/

theorem taintLoopS_len_get : ∀ (l : List ZipEntry) (st : TaintState),
    (taintLoopS l st).1.length = l.length ∧
    (∀ (i : Nat) (e : ZipEntry), l.get? i = some e →
      strEndsWith e.filename ".class" = false →
      (taintLoopS l st).1.get? i = some e) := by
  intro l
  induction l with
  | nil => intro st; exact ⟨rfl, fun i e hi _ => by simp at hi⟩
  | cons item rest ih =>
    intro st
    rw [taintLoopS]
    rcases hte : taintEntryS item st with ⟨e1, st1⟩
    dsimp only
    rcases hlp : taintLoopS rest st1 with ⟨out, st2⟩
    dsimp only
    have hih := ih st1
    rw [hlp] at hih
    dsimp only at hih
    refine ⟨by simp [hih.1], ?_⟩
    intro i e hi hnc
    cases i with
    | zero =>
      rw [List.get?_cons_zero] at hi
      injection hi with hi
      subst hi
      rw [taintEntryS, if_neg (by rw [hnc]; simp)] at hte
      injection hte with h1 _
      rw [List.get?_cons_zero, h1]
    | succ j =>
      rw [List.get?_cons_succ] at hi
      rw [List.get?_cons_succ]
      exact hih.2 j e hi hnc

/-- C9 counterexample: with two entries both named `a.txt`, the by-name
read used for every entry returns the bytes of the *last* entry of that
name, so the first output entry carries the second entry's bytes — the
pass is not byte-identical passthrough positionally. -/
theorem nonclass_passthrough_counterexample :
    (taint_jar exJarDup ⟨emptyRegistry, 0⟩).1.get? 0 =
        some ⟨"a.txt", EntryContent.raw [1]⟩ ∧
    exJarDup.get? 0 = some ⟨"a.txt", EntryContent.raw [0]⟩ ∧
    (⟨"a.txt", EntryContent.raw [1]⟩ : ZipEntry) ≠ ⟨"a.txt", EntryContent.raw [0]⟩ := by
  refine ⟨by decide, by decide, by decide⟩

/-- C9 (amended): provided no two entries of the archive share a name, the
tainting pass writes every entry whose name does not end in `.class` to the
output byte-for-byte identical, at the same position, and the output has
exactly as many entries as the input.  (With duplicate names the by-name
read returns the last duplicate's bytes for every occurrence, so the
unamended claim fails.) -/
theorem nonclass_passthrough (X : List ZipEntry) (st : TaintState)
    (hnames : (X.map (fun e => e.filename)).Nodup) :
    (taint_jar X st).1.length = X.length ∧
    ∀ (i : Nat) (e : ZipEntry), X.get? i = some e →
      strEndsWith e.filename ".class" = false →
      (taint_jar X st).1.get? i = some e := by
  rw [taint_jar_eq_S X st hnames]
  exact taintLoopS_len_get X st

/-- Witness for C9: a one-entry text archive passes through unchanged. -/
theorem nonclass_passthrough_witness :
    ((exJarTxt.map (fun e => e.filename)).Nodup ∧
     exJarTxt.get? 0 = some ⟨"r.txt", EntryContent.raw [7]⟩ ∧
     strEndsWith "r.txt" ".class" = false) ∧
    ((taint_jar exJarTxt ⟨emptyRegistry, 0⟩).1.length = exJarTxt.length ∧
     (taint_jar exJarTxt ⟨emptyRegistry, 0⟩).1.get? 0 =
       some ⟨"r.txt", EntryContent.raw [7]⟩) :=
  ⟨⟨by decide, by decide, by decide⟩,
   (nonclass_passthrough exJarTxt ⟨emptyRegistry, 0⟩ (by decide)).1,
   (nonclass_passthrough exJarTxt ⟨emptyRegistry, 0⟩ (by decide)).2 0
     ⟨"r.txt", EntryContent.raw [7]⟩ (by decide) (by decide)⟩

/-! ## Claim C10 -/

/-- C10: extraction resolves a class through the first field whose name
*ends with* the marker suffix; a class with no such field, or whose marker
field's constant is `None` or the empty string, contributes no rows at
all; and a truthy uid that is absent from the registry's class map also
contributes no rows; on a registry hit the CLASS row pairs the recorded
original name with the class's current name. -/
theorem marker_resolution (reg : Registry) (cn : ClassNode) :
    (cn.fields.find? (fun f => strEndsWith f.name markerFieldName) = none →
      tinyClassRows reg cn = []) ∧
    (∀ f, cn.fields.find? (fun f => strEndsWith f.name markerFieldName) = some f →
      (f.value = none ∨ f.value = some "") →
      tinyClassRows reg cn = []) ∧
    (∀ f v, cn.fields.find? (fun f => strEndsWith f.name markerFieldName) = some f →
      f.value = some v → v ≠ "" → dictGet v reg.classes = none →
      tinyClassRows reg cn = []) ∧
    (∀ f v d, cn.fields.find? (fun f => strEndsWith f.name markerFieldName) = some f →
      f.value = some v → v ≠ "" → dictGet v reg.classes = some d →
      tinyClassRows reg cn =
        ("CLASS\t" ++ d.name ++ "\t" ++ cn.name)
          :: (cn.methods.flatMap (fieldRowsOf reg d.name)
              ++ cn.methods.flatMap (methodRowsOf reg d.name))) := by
  refine ⟨?_, ?_, ?_, ?_⟩
  · intro h
    rw [tinyClassRows]
    rw [classUidOf, h]
    dsimp only
    rw [if_neg (by rw [show uidTruthy none = false from rfl]; simp)]
  · intro f hf hv
    rw [tinyClassRows]
    rw [classUidOf, hf]
    dsimp only
    rcases hv with hv | hv
    · rw [hv, if_neg (by rw [show uidTruthy none = false from rfl]; simp)]
    · rw [hv, if_neg (by rw [show uidTruthy (some "") = false from rfl]; simp)]
  · intro f v hf hval hv hmiss
    rw [tinyClassRows]
    rw [classUidOf, hf]
    dsimp only
    rw [hval, if_pos (by rw [show uidTruthy (some v) = (v != "") from rfl]; exact bne_iff_ne.mpr hv)]
    rw [show (some v).getD "" = v from rfl, hmiss]
  · intro f v d hf hval hv hhit
    rw [tinyClassRows]
    rw [classUidOf, hf]
    dsimp only
    rw [hval, if_pos (by rw [show uidTruthy (some v) = (v != "") from rfl]; exact bne_iff_ne.mpr hv)]
    rw [show (some v).getD "" = v from rfl, hhit]

/-- Witness for C10: the suffix rule fires on a field named
`Q__MCP_UUID__` (not equal to the marker name), its uid `u1` resolves in a
one-entry registry to original name `orig`, and the rows are as stated. -/
theorem marker_resolution_witness :
    (exClassSuffix.fields.find? (fun f => strEndsWith f.name markerFieldName) =
        some ⟨ACC_STATIC, "Q__MCP_UUID__", "Ljava/lang/String;", some "u1"⟩ ∧
     (some "u1" : Option String) = some "u1" ∧ "u1" ≠ "" ∧
     dictGet "u1" (⟨[("u1", ⟨"orig"⟩)], [], []⟩ : Registry).classes = some ⟨"orig"⟩) ∧
    tinyClassRows (⟨[("u1", ⟨"orig"⟩)], [], []⟩ : Registry) exClassSuffix =
      ("CLASS\t" ++ (⟨"orig"⟩ : ClassData).name ++ "\t" ++ exClassSuffix.name)
        :: (exClassSuffix.methods.flatMap
              (fieldRowsOf (⟨[("u1", ⟨"orig"⟩)], [], []⟩ : Registry) (⟨"orig"⟩ : ClassData).name)
            ++ exClassSuffix.methods.flatMap
              (methodRowsOf (⟨[("u1", ⟨"orig"⟩)], [], []⟩ : Registry)
                (⟨"orig"⟩ : ClassData).name)) :=
  ⟨⟨by decide, rfl, by decide, by decide⟩,
   (marker_resolution (⟨[("u1", ⟨"orig"⟩)], [], []⟩ : Registry) exClassSuffix).2.2.2
     ⟨ACC_STATIC, "Q__MCP_UUID__", "Ljava/lang/String;", some "u1"⟩ "u1" ⟨"orig"⟩
     (by decide) rfl (by decide) (by decide)⟩

end JarMarker
